import Mathlib

/-!
Verification of the N-API binding layer in `src/napi/mod.rs` of
sunrise-choir/node-napi.

The Rust code is a thin wrapper over the `napi_sys` ABI.  We shallowly embed
the wrapper functions over an explicit model of the host runtime:

* the host heap is a list of runtime values (`HVal`), addressed by `Handle`
  (a `Nat` index); allocation appends, so existing handles stay stable;
* each modelled ABI entry point (`napi_*`) is a Lean function threading the
  environment, returning a status and logging a trace entry, mirroring the
  documented N-API semantics;
* the Rust wrapper functions are translated line by line on top of those ABI
  models; every `debug_assert!(status == napi_ok)` appends the checked
  boolean to `Env.asserts` (release builds continue regardless, which is
  what the embedding does);
* machine integers are `Nat`/`Int` with explicit `% 2^32` where a `u32`
  could wrap.

Modelling conventions for the host runtime (external to the repository):
a string value stores the byte sequence supplied at its creation, and its
`length` property is that byte count; handle `0` is the runtime's singleton
`undefined`, handle `1` its `null`.
-/

namespace Napi

/-! ## UTF-8 encoding and strict decoding

`create_string_utf8` passes a Rust `&str`'s UTF-8 bytes to the ABI, and
`get_string` runs `String::from_utf8` over the extracted bytes.  We model
both with an explicit byte-level codec: `utf8EncodeChar` is the standard
1–4 byte encoding, `utf8Decode` the strict decoder (rejecting overlong
forms, surrogates and out-of-range codepoints, as `String::from_utf8`
does). -/

def utf8EncodeChar (c : Char) : List Nat :=
  if c.toNat < 0x80 then [c.toNat]
  else if c.toNat < 0x800 then [0xC0 + c.toNat / 64, 0x80 + c.toNat % 64]
  else if c.toNat < 0x10000 then
    [0xE0 + c.toNat / 4096, 0x80 + (c.toNat / 64) % 64, 0x80 + c.toNat % 64]
  else
    [0xF0 + c.toNat / 0x40000, 0x80 + (c.toNat / 4096) % 64,
      0x80 + (c.toNat / 64) % 64, 0x80 + c.toNat % 64]

def utf8EncodeChars : List Char → List Nat
  | [] => []
  | c :: cs => utf8EncodeChar c ++ utf8EncodeChars cs

/-- The UTF-8 bytes of a Rust `&str`. -/
def utf8Encode (s : String) : List Nat := utf8EncodeChars s.data

/-- A UTF-8 continuation byte. -/
def isCont (b : Nat) : Prop := 0x80 ≤ b ∧ b < 0xC0

instance (b : Nat) : Decidable (isCont b) := by unfold isCont; infer_instance

/-- One step of strict UTF-8 decoding: given the leading byte `b0`, the
remaining bytes `rest`, and the results `r1 r2 r3 r4` of decoding the tail
after consuming 1, 2, 3 or 4 bytes in total, produce the decoding of
`b0 :: rest`.  Missing continuation bytes read as `0` via `headD`, which is
not a continuation byte, so truncated sequences are rejected. -/
def utf8DecodeStep (b0 : Nat) (rest : List Nat)
    (r1 r2 r3 r4 : Option (List Char)) : Option (List Char) :=
  if b0 < 0x80 then r1.map (Char.ofNat b0 :: ·)
  else if b0 < 0xE0 then
    if 0xC2 ≤ b0 ∧ isCont (rest.headD 0) then
      r2.map (Char.ofNat ((b0 - 0xC0) * 64 + (rest.headD 0 - 0x80)) :: ·)
    else none
  else if b0 < 0xF0 then
    if isCont (rest.headD 0) ∧ isCont ((rest.drop 1).headD 0) ∧
        0x800 ≤ (b0 - 0xE0) * 4096 + (rest.headD 0 - 0x80) * 64 +
          ((rest.drop 1).headD 0 - 0x80) ∧
        ((b0 - 0xE0) * 4096 + (rest.headD 0 - 0x80) * 64 +
          ((rest.drop 1).headD 0 - 0x80) < 0xD800 ∨
         0xE000 ≤ (b0 - 0xE0) * 4096 + (rest.headD 0 - 0x80) * 64 +
          ((rest.drop 1).headD 0 - 0x80)) then
      r3.map (Char.ofNat ((b0 - 0xE0) * 4096 + (rest.headD 0 - 0x80) * 64 +
        ((rest.drop 1).headD 0 - 0x80)) :: ·)
    else none
  else
    if b0 < 0xF5 ∧ isCont (rest.headD 0) ∧ isCont ((rest.drop 1).headD 0) ∧
        isCont ((rest.drop 2).headD 0) ∧
        0x10000 ≤ (b0 - 0xF0) * 0x40000 + (rest.headD 0 - 0x80) * 4096 +
          ((rest.drop 1).headD 0 - 0x80) * 64 + ((rest.drop 2).headD 0 - 0x80) ∧
        (b0 - 0xF0) * 0x40000 + (rest.headD 0 - 0x80) * 4096 +
          ((rest.drop 1).headD 0 - 0x80) * 64 + ((rest.drop 2).headD 0 - 0x80)
          < 0x110000 then
      r4.map (Char.ofNat ((b0 - 0xF0) * 0x40000 + (rest.headD 0 - 0x80) * 4096 +
        ((rest.drop 1).headD 0 - 0x80) * 64 + ((rest.drop 2).headD 0 - 0x80)) :: ·)
    else none

/-- Fuelled strict UTF-8 decoder; `fuel ≥ length` makes it total (each step
consumes at least one byte). -/
def utf8DecodeAux : Nat → List Nat → Option (List Char)
  | _, [] => some []
  | 0, _ :: _ => none
  | fuel + 1, b0 :: rest =>
    utf8DecodeStep b0 rest
      (utf8DecodeAux fuel rest)
      (utf8DecodeAux fuel (rest.drop 1))
      (utf8DecodeAux fuel (rest.drop 2))
      (utf8DecodeAux fuel (rest.drop 3))

/-- Strict UTF-8 decoding, as performed by Rust's `String::from_utf8`:
`none` on any ill-formed input (truncated sequences, stray continuation
bytes, overlong forms, surrogates, codepoints past `0x10FFFF`). -/
def utf8Decode (l : List Nat) : Option (List Char) := utf8DecodeAux l.length l

/-! ## The host runtime model

Opaque `napi_value` handles are indices into a list of runtime values.
Allocation appends, so existing handles are stable.  By convention of the
model, handle `0` is the runtime's singleton `undefined` and handle `1` its
`null` (the ABI hands these out without allocating).  Every modelled ABI
entry point logs a trace record, so theorems can speak about the sequence
of ABI calls a wrapper performs. -/

abbrev Handle := Nat

/-- ABI status codes distinguished by the layer (`napi_ok`,
`napi_string_expected`, …); everything else the wrapper treats uniformly. -/
inductive Status where
  | ok
  | invalidArg
  | objectExpected
  | stringExpected
  | numberExpected
  | arrayExpected
  | functionExpected
  deriving DecidableEq

/-- Host built-in functions reachable through named-property lookup in this
model: the single `"slice"` method of array-like and buffer-like values. -/
inductive FnKind where
  | slice
  deriving DecidableEq

/-- A runtime value.  Strings are modelled as the byte sequence supplied at
creation (their `length` property is the byte count); buffers as their byte
content; arrays as lists of element handles; plain objects as
insertion-ordered association lists from property-name bytes to value
handles. -/
inductive HVal where
  | undef
  | nullv
  | num (n : Int)
  | str (bytes : List Nat)
  | buf (bytes : List Nat)
  | arr (elems : List Handle)
  | obj (props : List (List Nat × Handle))
  | fn (k : FnKind)
  deriving DecidableEq

/-- A trace record per modelled ABI call: the call, its key arguments, the
status it returned and its principal result. -/
inductive AbiCall where
  | getUndefined (res : Handle)
  | getNull (res : Handle)
  | getCbInfo (argcIn : Nat) (actual : Nat)
  | isBuffer (v : Handle) (st : Status)
  | getBufferInfo (v : Handle) (st : Status)
  | createBufferCopy (bytes : List Nat) (res : Handle)
  | createBuffer (len : Nat) (res : Handle)
  | createArrayWithLength (len : Nat) (res : Handle)
  | createStringUtf8 (bytes : List Nat) (res : Handle)
  | getProperty (object key : Handle) (st : Status) (res : Handle)
  | getValueUint32 (v : Handle) (st : Status) (res : Nat)
  | getValueStringUtf8 (v : Handle) (bufsize : Nat) (st : Status) (written : Nat)
  | createReference (v : Handle) (count : Nat) (res : Handle)
  | getReferenceValue (r : Handle) (st : Status) (res : Handle)
  | deleteReference (r : Handle) (st : Status)
  | createInt32 (n : Int) (res : Handle)
  | getValueInt32 (v : Handle) (st : Status) (res : Int)
  | typeofCall (v : Handle) (st : Status) (res : Nat)
  | getArrayLength (v : Handle) (st : Status) (res : Nat)
  | getElement (v : Handle) (i : Nat) (st : Status) (res : Handle)
  | getPropertyNames (v : Handle) (st : Status) (res : Handle)
  | getNamedProperty (v : Handle) (name : List Nat) (st : Status) (res : Handle)
  | callFunction (recv fnv : Handle) (args : List Handle) (st : Status) (res : Handle)
  deriving DecidableEq

/-- The environment state: the value heap, the reference table
(`napi_ref` handles index it; each entry is a pinned value handle and a
reference count), the ABI call trace, and the list of booleans passed to
`debug_assert!` by the wrapper layer. -/
structure Env where
  vals : List HVal
  refs : List (Handle × Nat)
  trace : List AbiCall
  asserts : List Bool
  deriving DecidableEq

/-- Allocate a fresh value; its handle is the previous heap size. -/
def Env.alloc (env : Env) (v : HVal) : Env × Handle :=
  ({ env with vals := env.vals ++ [v] }, env.vals.length)

def Env.log (env : Env) (c : AbiCall) : Env :=
  { env with trace := env.trace ++ [c] }

/-- Record the boolean checked by a `debug_assert!` (release builds carry
on regardless, so execution continues in both outcomes). -/
def Env.assert (env : Env) (b : Bool) : Env :=
  { env with asserts := env.asserts ++ [b] }

/-- An environment holding just the runtime singletons. -/
def baseEnv : Env := { vals := [.undef, .nullv], refs := [], trace := [], asserts := [] }

/-- A callback-info record: the `this` receiver and the positional
arguments actually supplied to the call. -/
structure CbInfo where
  this : Handle
  args : List Handle
  deriving DecidableEq

/-- First-match lookup in an object's property list. -/
def listLookup : List (List Nat × Handle) → List Nat → Option Handle
  | [], _ => none
  | (k, v) :: rest, key => if k = key then some v else listLookup rest key

/-! ### Modelled ABI entry points (`napi_*`) -/

def napi_get_undefined (env : Env) : Env × Status × Handle :=
  (env.log (.getUndefined 0), .ok, 0)

def napi_get_null (env : Env) : Env × Status × Handle :=
  (env.log (.getNull 1), .ok, 1)

/-- `napi_get_cb_info`: fills a caller-supplied buffer of size `argcIn`
with the first arguments, padding with `undefined` when fewer were
supplied, and reports the actual argument count. -/
def napi_get_cb_info (env : Env) (info : CbInfo) (argcIn : Nat) :
    Env × Status × List Handle × Nat × Handle :=
  (env.log (.getCbInfo argcIn info.args.length), .ok,
    info.args.take argcIn ++ List.replicate (argcIn - info.args.length) 0,
    info.args.length, info.this)

def napi_is_buffer (env : Env) (value : Handle) : Env × Status × Bool :=
  match env.vals.get? value with
  | some (.buf _) => (env.log (.isBuffer value .ok), .ok, true)
  | some _ => (env.log (.isBuffer value .ok), .ok, false)
  | none => (env.log (.isBuffer value .invalidArg), .invalidArg, false)

def napi_get_buffer_info (env : Env) (buffer : Handle) :
    Env × Status × List Nat × Nat :=
  match env.vals.get? buffer with
  | some (.buf bytes) =>
    (env.log (.getBufferInfo buffer .ok), .ok, bytes, bytes.length)
  | _ => (env.log (.getBufferInfo buffer .invalidArg), .invalidArg, [], 0)

def napi_create_buffer_copy (env : Env) (bytes : List Nat) :
    Env × Status × Handle :=
  let (env1, h) := env.alloc (.buf bytes)
  (env1.log (.createBufferCopy bytes h), .ok, h)

def napi_create_buffer (env : Env) (len : Nat) : Env × Status × Handle :=
  let (env1, h) := env.alloc (.buf (List.replicate len 0))
  (env1.log (.createBuffer len h), .ok, h)

/-- A fresh array of the given length is all holes; reading a hole yields
`undefined` (handle 0). -/
def napi_create_array_with_length (env : Env) (len : Nat) :
    Env × Status × Handle :=
  let (env1, h) := env.alloc (.arr (List.replicate len 0))
  (env1.log (.createArrayWithLength len h), .ok, h)

def napi_create_string_utf8 (env : Env) (bytes : List Nat) :
    Env × Status × Handle :=
  let (env1, h) := env.alloc (.str bytes)
  (env1.log (.createStringUtf8 bytes h), .ok, h)

def lengthKey : List Nat := utf8Encode "length"

/-- Generic property read.  On `undefined`/`null` receivers the runtime
raises, reported as a non-ok status; on strings, buffers and arrays the
`length` property is their element count (a freshly allocated number
value); plain objects look the key up; other receivers yield `undefined`. -/
def napi_get_property (env : Env) (object key : Handle) :
    Env × Status × Handle :=
  match env.vals.get? key with
  | some (.str kbytes) =>
    match env.vals.get? object with
    | some .undef =>
      (env.log (.getProperty object key .objectExpected 0), .objectExpected, 0)
    | some .nullv =>
      (env.log (.getProperty object key .objectExpected 0), .objectExpected, 0)
    | some (.num _) => (env.log (.getProperty object key .ok 0), .ok, 0)
    | some (.fn _) => (env.log (.getProperty object key .ok 0), .ok, 0)
    | some (.str sbytes) =>
      if kbytes = lengthKey then
        let (env1, h) := env.alloc (.num sbytes.length)
        (env1.log (.getProperty object key .ok h), .ok, h)
      else (env.log (.getProperty object key .ok 0), .ok, 0)
    | some (.buf bytes) =>
      if kbytes = lengthKey then
        let (env1, h) := env.alloc (.num bytes.length)
        (env1.log (.getProperty object key .ok h), .ok, h)
      else (env.log (.getProperty object key .ok 0), .ok, 0)
    | some (.arr elems) =>
      if kbytes = lengthKey then
        let (env1, h) := env.alloc (.num elems.length)
        (env1.log (.getProperty object key .ok h), .ok, h)
      else (env.log (.getProperty object key .ok 0), .ok, 0)
    | some (.obj props) =>
      (env.log (.getProperty object key .ok ((listLookup props kbytes).getD 0)),
        .ok, (listLookup props kbytes).getD 0)
    | none => (env.log (.getProperty object key .invalidArg 0), .invalidArg, 0)
  | _ => (env.log (.getProperty object key .invalidArg 0), .invalidArg, 0)

/-- `ToUint32` coercion of an integral number value. -/
def napi_get_value_uint32 (env : Env) (value : Handle) : Env × Status × Nat :=
  match env.vals.get? value with
  | some (.num n) =>
    (env.log (.getValueUint32 value .ok (n % 4294967296).toNat), .ok,
      (n % 4294967296).toNat)
  | some _ =>
    (env.log (.getValueUint32 value .numberExpected 0), .numberExpected, 0)
  | none => (env.log (.getValueUint32 value .invalidArg 0), .invalidArg, 0)

/-- `napi_get_value_string_utf8` with a buffer of size `bufsize`: copies at
most `bufsize - 1` bytes (reserving the terminating NUL) and reports the
number of bytes written. -/
def napi_get_value_string_utf8 (env : Env) (value : Handle) (bufsize : Nat) :
    Env × Status × Nat × List Nat :=
  match env.vals.get? value with
  | some (.str bytes) =>
    (env.log (.getValueStringUtf8 value bufsize .ok
        (min (bufsize - 1) bytes.length)), .ok,
      min (bufsize - 1) bytes.length, bytes.take (min (bufsize - 1) bytes.length))
  | some _ =>
    (env.log (.getValueStringUtf8 value bufsize .stringExpected 0),
      .stringExpected, 0, [])
  | none =>
    (env.log (.getValueStringUtf8 value bufsize .invalidArg 0), .invalidArg, 0, [])

def napi_create_reference (env : Env) (value : Handle) (count : Nat) :
    Env × Status × Handle :=
  let r := env.refs.length
  (({ env with refs := env.refs ++ [(value, count)] }).log
      (.createReference value count r), .ok, r)

def napi_get_reference_value (env : Env) (reference : Handle) :
    Env × Status × Handle :=
  match env.refs.get? reference with
  | some (v, count) =>
    if count = 0 then
      (env.log (.getReferenceValue reference .ok 0), .ok, 0)
    else (env.log (.getReferenceValue reference .ok v), .ok, v)
  | none =>
    (env.log (.getReferenceValue reference .invalidArg 0), .invalidArg, 0)

def napi_delete_reference (env : Env) (reference : Handle) : Env × Status :=
  match env.refs.get? reference with
  | some (v, _) =>
    (({ env with refs := env.refs.set reference (v, 0) }).log
        (.deleteReference reference .ok), .ok)
  | none => (env.log (.deleteReference reference .invalidArg), .invalidArg)

def napi_create_int32 (env : Env) (n : Int) : Env × Status × Handle :=
  let (env1, h) := env.alloc (.num n)
  (env1.log (.createInt32 n h), .ok, h)

/-- `ToInt32` coercion (two's-complement wrap) of an integral number. -/
def napi_get_value_int32 (env : Env) (value : Handle) : Env × Status × Int :=
  match env.vals.get? value with
  | some (.num n) =>
    (env.log (.getValueInt32 value .ok ((n + 2147483648) % 4294967296 - 2147483648)),
      .ok, (n + 2147483648) % 4294967296 - 2147483648)
  | some _ => (env.log (.getValueInt32 value .numberExpected 0), .numberExpected, 0)
  | none => (env.log (.getValueInt32 value .invalidArg 0), .invalidArg, 0)

/-- `napi_typeof` tags per the `napi_valuetype` enumeration: undefined 0,
null 1, number 3, string 4, object 6, function 7. -/
def napi_typeof (env : Env) (value : Handle) : Env × Status × Nat :=
  match env.vals.get? value with
  | some .undef => (env.log (.typeofCall value .ok 0), .ok, 0)
  | some .nullv => (env.log (.typeofCall value .ok 1), .ok, 1)
  | some (.num _) => (env.log (.typeofCall value .ok 3), .ok, 3)
  | some (.str _) => (env.log (.typeofCall value .ok 4), .ok, 4)
  | some (.buf _) => (env.log (.typeofCall value .ok 6), .ok, 6)
  | some (.arr _) => (env.log (.typeofCall value .ok 6), .ok, 6)
  | some (.obj _) => (env.log (.typeofCall value .ok 6), .ok, 6)
  | some (.fn _) => (env.log (.typeofCall value .ok 7), .ok, 7)
  | none => (env.log (.typeofCall value .invalidArg 0), .invalidArg, 0)

def napi_get_array_length (env : Env) (value : Handle) : Env × Status × Nat :=
  match env.vals.get? value with
  | some (.arr elems) =>
    (env.log (.getArrayLength value .ok (elems.length % 4294967296)), .ok,
      elems.length % 4294967296)
  | some _ => (env.log (.getArrayLength value .arrayExpected 0), .arrayExpected, 0)
  | none => (env.log (.getArrayLength value .invalidArg 0), .invalidArg, 0)

/-- Indexed element read; out-of-range and hole reads yield `undefined`. -/
def napi_get_element (env : Env) (value : Handle) (i : Nat) :
    Env × Status × Handle :=
  match env.vals.get? value with
  | some (.arr elems) =>
    (env.log (.getElement value i .ok (elems.getD i 0)), .ok, elems.getD i 0)
  | some _ => (env.log (.getElement value i .ok 0), .ok, 0)
  | none => (env.log (.getElement value i .invalidArg 0), .invalidArg, 0)

/-- Allocate one string value per name, in order. -/
def allocStrings (env : Env) : List (List Nat) → Env × List Handle
  | [] => (env, [])
  | nbytes :: rest =>
    let (env1, h) := env.alloc (.str nbytes)
    let (env2, hs) := allocStrings env1 rest
    (env2, h :: hs)

/-- Own enumerable property names of a plain object, as a fresh array of
fresh string values; non-objects are modelled as having none. -/
def napi_get_property_names (env : Env) (object : Handle) :
    Env × Status × Handle :=
  match env.vals.get? object with
  | some (.obj props) =>
    let (env1, hs) := allocStrings env (props.map Prod.fst)
    let (env2, h) := env1.alloc (.arr hs)
    (env2.log (.getPropertyNames object .ok h), .ok, h)
  | some .undef =>
    (env.log (.getPropertyNames object .objectExpected 0), .objectExpected, 0)
  | some .nullv =>
    (env.log (.getPropertyNames object .objectExpected 0), .objectExpected, 0)
  | some _ =>
    let (env1, h) := env.alloc (.arr [])
    (env1.log (.getPropertyNames object .ok h), .ok, h)
  | none =>
    (env.log (.getPropertyNames object .invalidArg 0), .invalidArg, 0)

/-- Named-property lookup.  Array-like, buffer-like and string values
expose the host's `"slice"` method (allocated fresh, as the model has no
interned function singletons); plain objects look the name up; `undefined`
and `null` receivers are errors.  The Rust caller passes the name's bytes
without a terminating NUL — the model reads it as the intended name. -/
def napi_get_named_property (env : Env) (object : Handle) (name : String) :
    Env × Status × Handle :=
  match env.vals.get? object with
  | some (.arr _) =>
    if name = "slice" then
      let (env1, h) := env.alloc (.fn .slice)
      (env1.log (.getNamedProperty object (utf8Encode name) .ok h), .ok, h)
    else (env.log (.getNamedProperty object (utf8Encode name) .ok 0), .ok, 0)
  | some (.buf _) =>
    if name = "slice" then
      let (env1, h) := env.alloc (.fn .slice)
      (env1.log (.getNamedProperty object (utf8Encode name) .ok h), .ok, h)
    else (env.log (.getNamedProperty object (utf8Encode name) .ok 0), .ok, 0)
  | some (.str _) =>
    if name = "slice" then
      let (env1, h) := env.alloc (.fn .slice)
      (env1.log (.getNamedProperty object (utf8Encode name) .ok h), .ok, h)
    else (env.log (.getNamedProperty object (utf8Encode name) .ok 0), .ok, 0)
  | some (.obj props) =>
    (env.log (.getNamedProperty object (utf8Encode name) .ok
        ((listLookup props (utf8Encode name)).getD 0)), .ok,
      (listLookup props (utf8Encode name)).getD 0)
  | some .undef =>
    (env.log (.getNamedProperty object (utf8Encode name) .objectExpected 0),
      .objectExpected, 0)
  | some .nullv =>
    (env.log (.getNamedProperty object (utf8Encode name) .objectExpected 0),
      .objectExpected, 0)
  | some _ =>
    (env.log (.getNamedProperty object (utf8Encode name) .ok 0), .ok, 0)
  | none =>
    (env.log (.getNamedProperty object (utf8Encode name) .invalidArg 0),
      .invalidArg, 0)

/-- `ToInteger`-style index coercion of a call argument against a length:
numbers clamp (negatives count from the end); everything else coerces
to 0, as `ToInteger` maps non-numeric values to 0 in this model. -/
def jsToIndex (env : Env) (h : Handle) (len : Nat) : Nat :=
  match env.vals.get? h with
  | some (.num n) => if n < 0 then len - min len n.natAbs else min n.toNat len
  | _ => 0

/-- The host `slice` built-in: a sub-range copy of a buffer or array
receiver (one argument: to the end; two arguments: between the two
indices).  It never mutates the receiver. -/
def sliceCall (env : Env) (recv : Handle) (args : List Handle) : Option HVal :=
  match env.vals.get? recv with
  | some (.buf bytes) =>
    some (.buf ((bytes.drop (jsToIndex env (args.getD 0 0) bytes.length)).take
      ((if 2 ≤ args.length then jsToIndex env (args.getD 1 0) bytes.length
        else bytes.length) - jsToIndex env (args.getD 0 0) bytes.length)))
  | some (.arr elems) =>
    some (.arr ((elems.drop (jsToIndex env (args.getD 0 0) elems.length)).take
      ((if 2 ≤ args.length then jsToIndex env (args.getD 1 0) elems.length
        else elems.length) - jsToIndex env (args.getD 0 0) elems.length)))
  | _ => none

/-- Call a function value on a receiver with explicit arguments.  The only
callable values in the model are the host `slice` built-ins; a `slice`
call on a receiver that is not array-like yields `undefined`. -/
def napi_call_function (env : Env) (recv fnv : Handle) (args : List Handle) :
    Env × Status × Handle :=
  match env.vals.get? fnv with
  | some (.fn .slice) =>
    match sliceCall env recv args with
    | some v =>
      let (env1, h) := env.alloc v
      (env1.log (.callFunction recv fnv args .ok h), .ok, h)
    | none => (env.log (.callFunction recv fnv args .ok 0), .ok, 0)
  | some _ =>
    (env.log (.callFunction recv fnv args .functionExpected 0),
      .functionExpected, 0)
  | none =>
    (env.log (.callFunction recv fnv args .invalidArg 0), .invalidArg, 0)

/-! ### The wrapper layer (translated from `src/napi/mod.rs`)

Each function mirrors the Rust source line by line; the opaque
`env: napi_env` argument the Rust functions thread (and `NapiArray`
stores) designates the ambient environment, made explicit here as the
`Env` state value. -/

/-- The single recoverable error kind of the layer
(`#[derive(Debug, Fail)] enum NapiError`). -/
inductive NapiError where
  | UnableToCreateString
  deriving DecidableEq

/-- `wrap_unsafe_create`: run a creation ABI call and assert its status. -/
def wrap_unsafe_create {α : Type} (env : Env) (item : α)
    (f : Env → α → Env × Status × Handle) : Env × Handle :=
  let (env1, st, result) := f env item
  (env1.assert (decide (st = .ok)), result)

/-- `wrap_unsafe_get`: run a read ABI call and assert its status. -/
def wrap_unsafe_get {α : Type} (env : Env) (value : Handle)
    (f : Env → Handle → Env × Status × α) : Env × α :=
  let (env1, st, result) := f env value
  (env1.assert (decide (st = .ok)), result)

def get_undefined_value (env : Env) : Env × Handle :=
  let (env1, st, undefined_value) := napi_get_undefined env
  (env1.assert (decide (st = .ok)), undefined_value)

def get_null_value (env : Env) : Env × Handle :=
  let (env1, st, null_value) := napi_get_null env
  (env1.assert (decide (st = .ok)), null_value)

def get_this (env : Env) (info : CbInfo) : Env × Handle :=
  let (env1, st, _args, _num_args, this) := napi_get_cb_info env info 0
  (env1.assert (decide (st = .ok)), this)

/-- `get_arg`: request `arg_index + 1` arguments; the ABI overwrites
`num_args` with the actual count, the `Vec` is truncated to it
(`set_len`), and a missing argument degrades to `undefined`
(`unwrap_or(&get_undefined_value(env))`, which Rust evaluates eagerly). -/
def get_arg (env : Env) (info : CbInfo) (arg_index : Nat) : Env × Handle :=
  let (env1, st, buf, num_args, _this) := napi_get_cb_info env info (arg_index + 1)
  let env2 := env1.assert (decide (st = .ok))
  let args := buf.take num_args
  let (env3, undef) := get_undefined_value env2
  (env3, (args.get? arg_index).getD undef)

def check_is_buffer (env : Env) (value : Handle) : Env × Bool :=
  let (env1, st, result) := napi_is_buffer env value
  (env1.assert (decide (st = .ok)), result)

/-- `get_buffer_info`: the raw data pointer is modelled by the byte content
it points to, paired with the reported byte length. -/
def get_buffer_info (env : Env) (buffer : Handle) : Env × List Nat × Nat :=
  let (env1, st, p_buff, buff_size) := napi_get_buffer_info env buffer
  (env1.assert (decide (st = .ok)), p_buff, buff_size)

def create_buffer_copy (env : Env) (slice : List Nat) : Env × Handle :=
  let (env1, st, buffer) := napi_create_buffer_copy env slice
  (env1.assert (decide (st = .ok)), buffer)

def create_array_with_length (env : Env) (length : Nat) : Env × Handle :=
  let (env1, st, array) := napi_create_array_with_length env length
  (env1.assert (decide (st = .ok)), array)

/-- `create_string_utf8` passes the `&str`'s UTF-8 bytes and length. -/
def create_string_utf8 (env : Env) (string : String) : Env × Handle :=
  let (env1, st, result) := napi_create_string_utf8 env (utf8Encode string)
  (env1.assert (decide (st = .ok)), result)

/-- `get_string`: read the value's `length` property through generic
property access, allocate `length + 1` bytes (`num += 1` on a `u32`, so
with release wrap-around), extract UTF-8 into the buffer, truncate to the
written count (`set_len(length)`), and decode (`String::from_utf8`).
Bails out with `UnableToCreateString` when the property read is not ok,
when the ABI reports `napi_string_expected`, or when decoding fails. -/
def get_string (env : Env) (value : Handle) : Env × Except NapiError String :=
  let (env1, length_value) := create_string_utf8 env "length"
  let (env2, st, string_length_value) := napi_get_property env1 value length_value
  if st ≠ Status.ok then (env2, .error .UnableToCreateString)
  else
    let (env3, st2, num0) := napi_get_value_uint32 env2 string_length_value
    let env4 := env3.assert (decide (st2 = .ok))
    let num := (num0 + 1) % 4294967296
    let (env5, st3, _written, extracted) := napi_get_value_string_utf8 env4 value num
    if st3 = Status.stringExpected then (env5, .error .UnableToCreateString)
    else
      let env6 := env5.assert (decide (st3 = .ok))
      match utf8Decode extracted with
      | some cs => (env6, .ok (String.mk cs))
      | none => (env6, .error .UnableToCreateString)

def create_buffer (env : Env) (len : Nat) : Env × Handle :=
  let (env1, st, buffer) := napi_create_buffer env len
  (env1.assert (decide (st = .ok)), buffer)

/-- `create_reference` pins the value with initial count `1`. -/
def create_reference (env : Env) (value : Handle) : Env × Handle :=
  let (env1, st, reference) := napi_create_reference env value 1
  (env1.assert (decide (st = .ok)), reference)

def get_reference_value (env : Env) (reference : Handle) : Env × Handle :=
  let (env1, st, value) := napi_get_reference_value env reference
  (env1.assert (decide (st = .ok)), value)

def delete_reference (env : Env) (reference : Handle) : Env :=
  let (env1, st) := napi_delete_reference env reference
  env1.assert (decide (st = .ok))

/-- Two's-complement `usize as i32` cast. -/
def i32ofNat (n : Nat) : Int :=
  ((n : Int) + 2147483648) % 4294967296 - 2147483648

def create_int32 (env : Env) (num : Int) : Env × Handle :=
  wrap_unsafe_create env num napi_create_int32

def get_typeof (env : Env) (value : Handle) : Env × Nat :=
  let (env1, st, result) := napi_typeof env value
  (env1.assert (decide (st = .ok)), result)

/-- `push_array`: resolve the property named `"slice"` off the array and
call it with the element as the single argument, asserting ok status after
each of the two ABI steps.  (The Rust passes `"slice".as_ptr()` without a
terminating NUL; the model reads the intended name.) -/
def push_array (env : Env) (array : Handle) (elem : Handle) : Env :=
  let (env1, st, push_fn) := napi_get_named_property env array "slice"
  let env2 := env1.assert (decide (st = .ok))
  let (env3, st2, _return_value) := napi_call_function env2 array push_fn [elem]
  env3.assert (decide (st2 = .ok))

/-- `slice_buffer`: create two int32 values from the `usize` bounds
(`as i32` casts), resolve the property named `"slice"` off the buffer,
call it with the two indices, and return the call's return value,
asserting ok status after each step. -/
def slice_buffer (env : Env) (buff : Handle) (beginning ending : Nat) :
    Env × Handle :=
  let (env1, arg0) := create_int32 env (i32ofNat beginning)
  let (env2, arg1) := create_int32 env1 (i32ofNat ending)
  let (env3, st, slice_fn) := napi_get_named_property env2 buff "slice"
  let env4 := env3.assert (decide (st = .ok))
  let (env5, st2, return_value) := napi_call_function env4 buff slice_fn [arg0, arg1]
  (env5.assert (decide (st2 = .ok)), return_value)

/-- The array cursor: an array value handle, a cached length snapshot and
a monotone read index.  (The Rust struct also stores the opaque `env`
pointer, which the embedding passes explicitly.) -/
structure NapiArray where
  array : Handle
  current_index : Nat
  length : Nat
  deriving DecidableEq

/-- `NapiArray::from_existing`: snapshot the array's length. -/
def NapiArray.from_existing (env : Env) (array : Handle) : Env × NapiArray :=
  let (env1, st, length) := napi_get_array_length env array
  (env1.assert (decide (st = .ok)),
    { array := array, length := length, current_index := 0 })

/-- `NapiArray::with_capacity`: a fresh array of the given length whose
cursor nevertheless starts with logical `length = 0`. -/
def NapiArray.with_capacity (env : Env) (capacity : Nat) : Env × NapiArray :=
  let (env1, array) := create_array_with_length env capacity
  (env1, { array := array, length := 0, current_index := 0 })

/-- `NapiArray::push` delegates to `push_array` and touches no cursor
field. -/
def NapiArray.push (env : Env) (a : NapiArray) (elem : Handle) :
    Env × NapiArray :=
  (push_array env a.array elem, a)

/-- `Iterator::next for NapiArray`: yield the element at `current_index`
and advance, or signal exhaustion once the index reaches the cached
length. -/
def NapiArray.next (env : Env) (a : NapiArray) :
    Env × Option Handle × NapiArray :=
  if a.length ≤ a.current_index then (env, none, a)
  else
    let (env1, st, value) := napi_get_element env a.array a.current_index
    let env2 := env1.assert (decide (st = .ok))
    (env2, some value, { a with current_index := a.current_index + 1 })

/-- Run `next` up to `fuel` times, collecting the yielded handles in
order; stops early when the cursor signals exhaustion.  This is the
iteration protocol a Rust `for` loop performs. -/
def NapiArray.nexts (env : Env) (a : NapiArray) :
    Nat → Env × List Handle × NapiArray
  | 0 => (env, [], a)
  | fuel + 1 =>
    match NapiArray.next env a with
    | (env1, none, a1) => (env1, [], a1)
    | (env1, some h, a1) =>
      let (env2, hs, a2) := NapiArray.nexts env1 a1 fuel
      (env2, h :: hs, a2)

/-- Ordered insertion with replacement on an association list sorted by
key: the behaviour of `BTreeMap::insert` on the model's ordered-map
representation. -/
def insertSorted : List (String × Handle) → String → Handle →
    List (String × Handle)
  | [], k, v => [(k, v)]
  | (k1, v1) :: rest, k, v =>
    if k < k1 then (k, v) :: (k1, v1) :: rest
    else if k1 < k then (k1, v1) :: insertSorted rest k v
    else (k, v) :: rest

/-- The `for key in NapiArray::from_existing(..)` loop body of
`get_object_map`: resolve each name to its value, decode the name with
`get_string`, and insert on success, silently skipping decode failures. -/
def get_object_map_loop (object : Handle) :
    Nat → Env → NapiArray → List (String × Handle) →
    Env × List (String × Handle)
  | 0, env, _, m => (env, m)
  | fuel + 1, env, a, m =>
    match NapiArray.next env a with
    | (env1, none, _) => (env1, m)
    | (env1, some key, a1) =>
      let (env2, st, value) := napi_get_property env1 object key
      let env3 := env2.assert (decide (st = .ok))
      match get_string env3 key with
      | (env4, .ok key_string) =>
        get_object_map_loop object fuel env4 a1 (insertSorted m key_string value)
      | (env4, .error _) => get_object_map_loop object fuel env4 a1 m

/-- `get_object_map`: enumerate the object's own property names, iterate
them with an array cursor, and build the ordered mapping.  The cursor
yields at most `length` elements, so that much fuel runs the Rust loop to
completion. -/
def get_object_map (env : Env) (object : Handle) :
    Env × List (String × Handle) :=
  let (env1, st, keys_value) := napi_get_property_names env object
  let env2 := env1.assert (decide (st = .ok))
  let (env3, a) := NapiArray.from_existing env2 keys_value
  get_object_map_loop object (a.length - a.current_index) env3 a []

/-- The bytes `get_string` hands to `String::from_utf8` for a string value
with the given content: the `u32` length-property read, the wrap-around
`+ 1`, the NUL reservation, and the truncation to the written count. -/
def extractedBytes (bytes : List Nat) : List Nat :=
  bytes.take (min ((bytes.length % 4294967296 + 1) % 4294967296 - 1) bytes.length)

/-- The string `get_string` produces from a string value holding the given
bytes, when it produces one. -/
def decodeName (bytes : List Nat) : Option String :=
  (utf8Decode (extractedBytes bytes)).map String.mk

/-- The pure counterpart of the `get_object_map` loop: fold the property
names in order, inserting each decodable name with the value its
first-match lookup resolves to, skipping undecodable names. -/
def mapInserts (props : List (List Nat × Handle)) (m : List (String × Handle)) :
    List (List Nat) → List (String × Handle)
  | [] => m
  | n :: rest =>
    match decodeName n with
    | some s => mapInserts props (insertSorted m s ((listLookup props n).getD 0)) rest
    | none => mapInserts props m rest

def HVal.isStr : HVal → Prop
  | .str _ => True
  | _ => False

/-- Semantic renderings of the three error conditions of `get_string` (the
ABI statuses they correspond to are fixed by `napi_get_property` and
`napi_get_value_string_utf8`). -/
def lengthReadFails (u : HVal) : Prop := u = .undef ∨ u = .nullv

def notAString (u : HVal) : Prop := ¬ u.isStr

def decodeFails (u : HVal) : Prop :=
  ∃ bytes, u = .str bytes ∧ utf8Decode (extractedBytes bytes) = none

/-- Operations a client can perform on an existing cursor. -/
inductive ArrOp where
  | next
  | push (elem : Handle)

def NapiArray.applyOp (env : Env) (a : NapiArray) : ArrOp → Env × NapiArray
  | .next =>
    match NapiArray.next env a with
    | (env1, _, a1) => (env1, a1)
  | .push e => NapiArray.push env a e

def NapiArray.applyOps : List ArrOp → Env × NapiArray → Env × NapiArray
  | [], p => p
  | op :: ops, (env, a) => NapiArray.applyOps ops (NapiArray.applyOp env a op)

/-- The cursor invariant. -/
abbrev NapiArray.Inv (a : NapiArray) : Prop := a.current_index ≤ a.length

/-! ## Codec correctness -/

theorem utf8DecodeAux_fuel :
    ∀ f1 l, l.length ≤ f1 → ∀ f2, l.length ≤ f2 →
      utf8DecodeAux f1 l = utf8DecodeAux f2 l := by
  intro f1
  induction f1 with
  | zero =>
    intro l hl f2 _
    cases l with
    | nil => cases f2 <;> rfl
    | cons b0 rest => simp at hl
  | succ g1 ih =>
    intro l hl f2 hl2
    cases l with
    | nil => cases f2 <;> rfl
    | cons b0 rest =>
      cases f2 with
      | zero => simp at hl2
      | succ g2 =>
        rw [utf8DecodeAux, utf8DecodeAux]
        rw [ih rest (by simp at hl; omega) g2 (by simp at hl2; omega)]
        rw [ih (rest.drop 1) (by simp [List.length_drop] at hl ⊢; omega) g2
          (by simp [List.length_drop] at hl2 ⊢; omega)]
        rw [ih (rest.drop 2) (by simp [List.length_drop] at hl ⊢; omega) g2
          (by simp [List.length_drop] at hl2 ⊢; omega)]
        rw [ih (rest.drop 3) (by simp [List.length_drop] at hl ⊢; omega) g2
          (by simp [List.length_drop] at hl2 ⊢; omega)]

theorem utf8Decode_nil : utf8Decode [] = some [] := rfl

/-- Unfolding lemma for the decoder on a nonempty list. -/
theorem utf8Decode_cons (b0 : Nat) (rest : List Nat) :
    utf8Decode (b0 :: rest) =
      utf8DecodeStep b0 rest (utf8Decode rest) (utf8Decode (rest.drop 1))
        (utf8Decode (rest.drop 2)) (utf8Decode (rest.drop 3)) := by
  show utf8DecodeAux (rest.length + 1) (b0 :: rest) = _
  rw [utf8DecodeAux]
  rw [utf8DecodeAux_fuel rest.length (rest.drop 1)
    (by simp [List.length_drop]) (rest.drop 1).length (le_refl _)]
  rw [utf8DecodeAux_fuel rest.length (rest.drop 2)
    (by simp [List.length_drop]) (rest.drop 2).length (le_refl _)]
  rw [utf8DecodeAux_fuel rest.length (rest.drop 3)
    (by simp [List.length_drop]) (rest.drop 3).length (le_refl _)]
  rfl

theorem toNat_ofNat_of_valid {n : Nat} (h : n.isValidChar) :
    (Char.ofNat n).toNat = n := by
  rw [Char.ofNat, dif_pos h]
  simp [Char.ofNatAux, Char.toNat, UInt32.toNat]

theorem valid_of_lt_d800 {n : Nat} (h : n < 0xD800) : n.isValidChar := Or.inl h

/-- Decoding after encoding one character succeeds and peels the character
off. -/
theorem utf8Decode_encodeChar (c : Char) (l : List Nat) :
    utf8Decode (utf8EncodeChar c ++ l) = (utf8Decode l).map (c :: ·) := by
  have hval : c.toNat.isValidChar := c.valid
  rcases Nat.lt_or_ge c.toNat 0x80 with h1 | h1
  · rw [utf8EncodeChar, if_pos h1]
    rw [List.cons_append, List.nil_append, utf8Decode_cons, utf8DecodeStep,
      if_pos h1, Char.ofNat_toNat]
  · rcases Nat.lt_or_ge c.toNat 0x800 with h2 | h2
    · rw [utf8EncodeChar, if_neg (by omega), if_pos h2]
      rw [List.cons_append, List.cons_append, List.nil_append,
        utf8Decode_cons, utf8DecodeStep]
      simp only [List.headD_cons, List.drop_succ_cons, List.drop_zero,
        Nat.add_sub_cancel_left]
      rw [if_neg (by omega), if_pos (by omega),
        if_pos ⟨by omega, by unfold isCont; omega⟩]
      have hcp : c.toNat / 64 * 64 + c.toNat % 64 = c.toNat := by omega
      rw [hcp, Char.ofNat_toNat]
    · rcases Nat.lt_or_ge c.toNat 0x10000 with h3 | h3
      · have hsur : c.toNat < 0xD800 ∨ 0xE000 ≤ c.toNat := by
          rcases hval with h | ⟨h, _⟩ <;> omega
        rw [utf8EncodeChar, if_neg (by omega), if_neg (by omega), if_pos h3]
        rw [List.cons_append, List.cons_append, List.cons_append,
          List.nil_append, utf8Decode_cons, utf8DecodeStep]
        simp only [List.headD_cons, List.drop_succ_cons, List.drop_zero,
          Nat.add_sub_cancel_left]
        rw [if_neg (by omega), if_neg (by omega), if_pos (by omega),
          if_pos ⟨by unfold isCont; omega, by unfold isCont; omega,
            by omega, by omega⟩]
        have hcp : c.toNat / 4096 * 4096 + c.toNat / 64 % 64 * 64 +
            c.toNat % 64 = c.toNat := by omega
        rw [hcp, Char.ofNat_toNat]
      · have h4 : c.toNat < 0x110000 := by
          rcases hval with h | ⟨_, h⟩ <;> omega
        rw [utf8EncodeChar, if_neg (by omega), if_neg (by omega),
          if_neg (by omega)]
        rw [List.cons_append, List.cons_append, List.cons_append,
          List.cons_append, List.nil_append, utf8Decode_cons, utf8DecodeStep]
        simp only [List.headD_cons, List.drop_succ_cons, List.drop_zero,
          Nat.add_sub_cancel_left]
        rw [if_neg (by omega), if_neg (by omega), if_neg (by omega),
          if_pos ⟨by omega, by unfold isCont; omega, by unfold isCont; omega,
            by unfold isCont; omega, by omega, by omega⟩]
        have hcp : c.toNat / 0x40000 * 0x40000 + c.toNat / 4096 % 64 * 4096 +
            c.toNat / 64 % 64 * 64 + c.toNat % 64 = c.toNat := by omega
        rw [hcp, Char.ofNat_toNat]

/-- Encoding then decoding a character list is the identity. -/
theorem utf8Decode_encodeChars (cs : List Char) :
    utf8Decode (utf8EncodeChars cs) = some cs := by
  induction cs with
  | nil => rw [utf8EncodeChars]; rfl
  | cons c cs ih =>
    rw [utf8EncodeChars, utf8Decode_encodeChar, ih, Option.map_some']

theorem utf8Decode_encode (s : String) :
    utf8Decode (utf8Encode s) = some s.data := utf8Decode_encodeChars s.data

/-- Strict UTF-8 is a canonical code: re-encoding a successful decoding
recovers the input bytes. -/
theorem utf8EncodeChars_of_decode :
    ∀ n l cs, l.length ≤ n → utf8Decode l = some cs → utf8EncodeChars cs = l := by
  intro n
  induction n with
  | zero =>
    intro l cs hl h
    cases l with
    | nil =>
      rw [utf8Decode_nil] at h
      cases h
      rfl
    | cons b0 rest => simp at hl
  | succ n ih =>
    intro l cs hl h
    cases l with
    | nil =>
      rw [utf8Decode_nil] at h
      cases h
      rfl
    | cons b0 rest =>
      have hrest : rest.length ≤ n := by simp at hl; omega
      rw [utf8Decode_cons, utf8DecodeStep] at h
      by_cases h1 : b0 < 0x80
      · rw [if_pos h1] at h
        rcases Option.map_eq_some'.mp h with ⟨cs', hdec, hcs⟩
        subst hcs
        rw [utf8EncodeChars, ih rest cs' hrest hdec, utf8EncodeChar,
          if_pos (by rw [toNat_ofNat_of_valid (Or.inl (by omega))]; omega),
          toNat_ofNat_of_valid (Or.inl (by omega))]
        rfl
      · rw [if_neg h1] at h
        by_cases h2 : b0 < 0xE0
        · rw [if_pos h2] at h
          by_cases hg : 0xC2 ≤ b0 ∧ isCont (rest.headD 0)
          · rw [if_pos hg] at h
            obtain ⟨hg1, hg2⟩ := hg
            cases rest with
            | nil =>
              exfalso
              simp only [List.headD_nil] at hg2
              exact absurd hg2 (by unfold isCont; omega)
            | cons b1 rest1 =>
              simp only [List.headD_cons, List.drop_succ_cons,
                List.drop_zero] at h hg2
              rcases Option.map_eq_some'.mp h with ⟨cs', hdec, hcs⟩
              subst hcs
              have hcont : 0x80 ≤ b1 ∧ b1 < 0xC0 := hg2
              have hval : ((b0 - 0xC0) * 64 + (b1 - 0x80)).isValidChar :=
                Or.inl (by omega)
              have hrest1 : rest1.length ≤ n := by simp at hl; omega
              rw [utf8EncodeChars, ih rest1 cs' hrest1 hdec, utf8EncodeChar,
                toNat_ofNat_of_valid hval,
                if_neg (by omega), if_pos (by omega)]
              have e1 : 0xC0 + ((b0 - 0xC0) * 64 + (b1 - 0x80)) / 64 = b0 := by
                omega
              have e2 : 0x80 + ((b0 - 0xC0) * 64 + (b1 - 0x80)) % 64 = b1 := by
                omega
              rw [e1, e2]
              rfl
          · rw [if_neg hg] at h
            cases h
        · rw [if_neg h2] at h
          by_cases h3 : b0 < 0xF0
          · rw [if_pos h3] at h
            by_cases hg : isCont (rest.headD 0) ∧ isCont ((rest.drop 1).headD 0) ∧
                0x800 ≤ (b0 - 0xE0) * 4096 + (rest.headD 0 - 0x80) * 64 +
                  ((rest.drop 1).headD 0 - 0x80) ∧
                ((b0 - 0xE0) * 4096 + (rest.headD 0 - 0x80) * 64 +
                  ((rest.drop 1).headD 0 - 0x80) < 0xD800 ∨
                 0xE000 ≤ (b0 - 0xE0) * 4096 + (rest.headD 0 - 0x80) * 64 +
                  ((rest.drop 1).headD 0 - 0x80))
            · rw [if_pos hg] at h
              obtain ⟨hg1, hg2, hg3, hg4⟩ := hg
              cases rest with
              | nil =>
                exfalso
                simp only [List.headD_nil] at hg1
                exact absurd hg1 (by unfold isCont; omega)
              | cons b1 rest1 =>
                cases rest1 with
                | nil =>
                  exfalso
                  simp only [List.drop_succ_cons, List.drop_zero,
                    List.headD_nil] at hg2
                  exact absurd hg2 (by unfold isCont; omega)
                | cons b2 rest2 =>
                  simp only [List.headD_cons, List.drop_succ_cons,
                    List.drop_zero] at h hg1 hg2 hg3 hg4
                  rcases Option.map_eq_some'.mp h with ⟨cs', hdec, hcs⟩
                  subst hcs
                  have hc1 : 0x80 ≤ b1 ∧ b1 < 0xC0 := hg1
                  have hc2 : 0x80 ≤ b2 ∧ b2 < 0xC0 := hg2
                  have hval : ((b0 - 0xE0) * 4096 + (b1 - 0x80) * 64 +
                      (b2 - 0x80)).isValidChar := by
                    rcases hg4 with h' | h'
                    · exact Or.inl h'
                    · exact Or.inr ⟨by omega, by omega⟩
                  have hrest2 : rest2.length ≤ n := by simp at hl; omega
                  rw [utf8EncodeChars, ih rest2 cs' hrest2 hdec, utf8EncodeChar,
                    toNat_ofNat_of_valid hval,
                    if_neg (by omega), if_neg (by omega), if_pos (by omega)]
                  have e1 : 0xE0 + ((b0 - 0xE0) * 4096 + (b1 - 0x80) * 64 +
                      (b2 - 0x80)) / 4096 = b0 := by omega
                  have e2 : 0x80 + ((b0 - 0xE0) * 4096 + (b1 - 0x80) * 64 +
                      (b2 - 0x80)) / 64 % 64 = b1 := by omega
                  have e3 : 0x80 + ((b0 - 0xE0) * 4096 + (b1 - 0x80) * 64 +
                      (b2 - 0x80)) % 64 = b2 := by omega
                  rw [e1, e2, e3]
                  rfl
            · rw [if_neg hg] at h
              cases h
          · rw [if_neg h3] at h
            by_cases hg : b0 < 0xF5 ∧ isCont (rest.headD 0) ∧
                isCont ((rest.drop 1).headD 0) ∧ isCont ((rest.drop 2).headD 0) ∧
                0x10000 ≤ (b0 - 0xF0) * 0x40000 + (rest.headD 0 - 0x80) * 4096 +
                  ((rest.drop 1).headD 0 - 0x80) * 64 +
                  ((rest.drop 2).headD 0 - 0x80) ∧
                (b0 - 0xF0) * 0x40000 + (rest.headD 0 - 0x80) * 4096 +
                  ((rest.drop 1).headD 0 - 0x80) * 64 +
                  ((rest.drop 2).headD 0 - 0x80) < 0x110000
            · rw [if_pos hg] at h
              obtain ⟨hg0, hg1, hg2, hg3, hg4, hg5⟩ := hg
              cases rest with
              | nil =>
                exfalso
                simp only [List.headD_nil] at hg1
                exact absurd hg1 (by unfold isCont; omega)
              | cons b1 rest1 =>
                cases rest1 with
                | nil =>
                  exfalso
                  simp only [List.drop_succ_cons, List.drop_zero,
                    List.headD_nil] at hg2
                  exact absurd hg2 (by unfold isCont; omega)
                | cons b2 rest2 =>
                  cases rest2 with
                  | nil =>
                    exfalso
                    simp only [List.drop_succ_cons, List.drop_zero,
                      List.headD_nil] at hg3
                    exact absurd hg3 (by unfold isCont; omega)
                  | cons b3 rest3 =>
                    simp only [List.headD_cons, List.drop_succ_cons,
                      List.drop_zero] at h hg1 hg2 hg3 hg4 hg5
                    rcases Option.map_eq_some'.mp h with ⟨cs', hdec, hcs⟩
                    subst hcs
                    have hc1 : 0x80 ≤ b1 ∧ b1 < 0xC0 := hg1
                    have hc2 : 0x80 ≤ b2 ∧ b2 < 0xC0 := hg2
                    have hc3 : 0x80 ≤ b3 ∧ b3 < 0xC0 := hg3
                    have hval : ((b0 - 0xF0) * 0x40000 + (b1 - 0x80) * 4096 +
                        (b2 - 0x80) * 64 + (b3 - 0x80)).isValidChar :=
                      Or.inr ⟨by omega, hg5⟩
                    have hrest3 : rest3.length ≤ n := by simp at hl; omega
                    rw [utf8EncodeChars, ih rest3 cs' hrest3 hdec,
                      utf8EncodeChar, toNat_ofNat_of_valid hval,
                      if_neg (by omega), if_neg (by omega), if_neg (by omega)]
                    have e1 : 0xF0 + ((b0 - 0xF0) * 0x40000 + (b1 - 0x80) * 4096 +
                        (b2 - 0x80) * 64 + (b3 - 0x80)) / 0x40000 = b0 := by omega
                    have e2 : 0x80 + ((b0 - 0xF0) * 0x40000 + (b1 - 0x80) * 4096 +
                        (b2 - 0x80) * 64 + (b3 - 0x80)) / 4096 % 64 = b1 := by
                      omega
                    have e3 : 0x80 + ((b0 - 0xF0) * 0x40000 + (b1 - 0x80) * 4096 +
                        (b2 - 0x80) * 64 + (b3 - 0x80)) / 64 % 64 = b2 := by omega
                    have e4 : 0x80 + ((b0 - 0xF0) * 0x40000 + (b1 - 0x80) * 4096 +
                        (b2 - 0x80) * 64 + (b3 - 0x80)) % 64 = b3 := by omega
                    rw [e1, e2, e3, e4]
                    rfl
            · rw [if_neg hg] at h
              cases h

/-- Re-encoding a successful decoding recovers the input bytes. -/
theorem utf8EncodeChars_decode {l : List Nat} {cs : List Char}
    (h : utf8Decode l = some cs) : utf8EncodeChars cs = l :=
  utf8EncodeChars_of_decode l.length l cs (le_refl _) h

/-- The strict decoder is injective on successfully decoded byte lists. -/
theorem utf8Decode_inj {l1 l2 : List Nat} {cs : List Char}
    (h1 : utf8Decode l1 = some cs) (h2 : utf8Decode l2 = some cs) : l1 = l2 := by
  rw [← utf8EncodeChars_decode h1, ← utf8EncodeChars_decode h2]

/-! ## Helper lemmas about the heap -/

theorem get?_append_some {α : Type} :
    ∀ {l1 : List α} {n : Nat} {a : α},
      l1.get? n = some a → ∀ l2 : List α, (l1 ++ l2).get? n = some a := by
  intro l1
  induction l1 with
  | nil => intro n a h l2; cases n <;> simp at h
  | cons x xs ih =>
    intro n a h l2
    cases n with
    | zero => exact h
    | succ n => exact ih h l2

theorem get?_append_self {α : Type} :
    ∀ (l1 : List α) (a : α) (rest : List α),
      (l1 ++ a :: rest).get? l1.length = some a := by
  intro l1
  induction l1 with
  | nil => intro a rest; rfl
  | cons x xs ih => intro a rest; exact ih a rest

theorem getElem?_append_some {α : Type} {l1 : List α} {n : Nat} {a : α}
    (h : l1[n]? = some a) : ∀ l2 : List α, (l1 ++ l2)[n]? = some a := by
  intro l2
  rw [← List.get?_eq_getElem?] at h ⊢
  exact get?_append_some h l2

theorem getElem?_append_self {α : Type} (l1 : List α) (a : α) (rest : List α) :
    (l1 ++ a :: rest)[l1.length]? = some a := by
  rw [← List.get?_eq_getElem?]
  exact get?_append_self l1 a rest

/-- `napi_get_value_uint32` only logs; the heap is unchanged. -/
theorem vals_getValueUint32 (env : Env) (h : Handle) :
    ((napi_get_value_uint32 env h).1).vals = env.vals := by
  unfold napi_get_value_uint32
  split <;> rfl

theorem create_length_string (env : Env) :
    create_string_utf8 env "length" =
      ({ vals := env.vals ++ [.str lengthKey], refs := env.refs,
         trace := env.trace ++ [.createStringUtf8 lengthKey env.vals.length],
         asserts := env.asserts ++ [true] }, env.vals.length) := rfl

/-- Full characterisation of `get_string` on a live handle: the single
error kind on non-string values and on undecodable bytes, the decoded
string otherwise. -/
theorem getString_spec (env : Env) (v : Handle) (u : HVal)
    (hv : env.vals.get? v = some u) :
    (get_string env v).2 =
      match u with
      | .str bytes =>
        match utf8Decode (extractedBytes bytes) with
        | some cs => .ok (String.mk cs)
        | none => .error NapiError.UnableToCreateString
      | _ => .error NapiError.UnableToCreateString := by
  have hv0 : env.vals[v]? = some u := by
    rw [← List.get?_eq_getElem?]
    exact hv
  have hv1 : ∀ l2, (env.vals ++ l2)[v]? = some u := getElem?_append_some hv0
  have hv2 : ∀ l2, ((env.vals ++ [HVal.str lengthKey]) ++ l2)[v]? = some u :=
    getElem?_append_some (hv1 [HVal.str lengthKey])
  cases u with
  | undef =>
    simp [get_string, create_length_string, napi_get_property,
      getElem?_append_self, hv1, -List.getElem?_eq_getElem]
  | nullv =>
    simp [get_string, create_length_string, napi_get_property,
      getElem?_append_self, hv1, -List.getElem?_eq_getElem]
  | num n =>
    simp only [get_string, create_length_string, napi_get_property,
      List.get?_eq_getElem?, getElem?_append_self, hv1, napi_get_value_uint32]
    rcases h0 : (env.vals ++ [HVal.str lengthKey])[(0 : Nat)]? with _ | u0
    · simp [h0, napi_get_value_string_utf8, Env.log, Env.assert, hv1,
        -List.getElem?_eq_getElem]
    · cases u0 <;>
        simp [h0, napi_get_value_string_utf8, Env.log, Env.assert, hv1,
          -List.getElem?_eq_getElem]
  | fn k =>
    simp only [get_string, create_length_string, napi_get_property,
      List.get?_eq_getElem?, getElem?_append_self, hv1, napi_get_value_uint32]
    rcases h0 : (env.vals ++ [HVal.str lengthKey])[(0 : Nat)]? with _ | u0
    · simp [h0, napi_get_value_string_utf8, Env.log, Env.assert, hv1,
        -List.getElem?_eq_getElem]
    · cases u0 <;>
        simp [h0, napi_get_value_string_utf8, Env.log, Env.assert, hv1,
          -List.getElem?_eq_getElem]
  | obj props =>
    simp only [get_string, create_length_string, napi_get_property,
      List.get?_eq_getElem?, getElem?_append_self, hv1, napi_get_value_uint32]
    rcases h0 : (env.vals ++ [HVal.str lengthKey])[(listLookup props lengthKey).getD 0]?
      with _ | u0
    · simp [h0, napi_get_value_string_utf8, Env.log, Env.assert, hv1,
        -List.getElem?_eq_getElem]
    · cases u0 <;>
        simp [h0, napi_get_value_string_utf8, Env.log, Env.assert, hv1,
          -List.getElem?_eq_getElem]
  | buf bytes =>
    have hnum : (env.vals ++ [HVal.str lengthKey,
        HVal.num (bytes.length : Int)])[env.vals.length + 1]? =
        some (HVal.num (bytes.length : Int)) := by
      have h' := getElem?_append_self (env.vals ++ [HVal.str lengthKey])
        (HVal.num (bytes.length : Int)) []
      simpa [-List.getElem?_eq_getElem] using h'
    simp [get_string, create_length_string, napi_get_property,
      getElem?_append_self, hv1, hv2, hnum, Env.alloc, Env.log, Env.assert,
      napi_get_value_uint32, napi_get_value_string_utf8,
      -List.getElem?_eq_getElem]
  | arr elems =>
    have hnum : (env.vals ++ [HVal.str lengthKey,
        HVal.num (elems.length : Int)])[env.vals.length + 1]? =
        some (HVal.num (elems.length : Int)) := by
      have h' := getElem?_append_self (env.vals ++ [HVal.str lengthKey])
        (HVal.num (elems.length : Int)) []
      simpa [-List.getElem?_eq_getElem] using h'
    simp [get_string, create_length_string, napi_get_property,
      getElem?_append_self, hv1, hv2, hnum, Env.alloc, Env.log, Env.assert,
      napi_get_value_uint32, napi_get_value_string_utf8,
      -List.getElem?_eq_getElem]
  | str bytes =>
    have hnum : (env.vals ++ [HVal.str lengthKey,
        HVal.num (bytes.length : Int)])[env.vals.length + 1]? =
        some (HVal.num (bytes.length : Int)) := by
      have h' := getElem?_append_self (env.vals ++ [HVal.str lengthKey])
        (HVal.num (bytes.length : Int)) []
      simpa [-List.getElem?_eq_getElem] using h'
    have hmod : ((bytes.length : Int) % 4294967296).toNat =
        bytes.length % 4294967296 := by omega
    simp [get_string, create_length_string, napi_get_property,
      getElem?_append_self, hv1, hv2, hnum, Env.alloc, Env.log, Env.assert,
      napi_get_value_uint32, napi_get_value_string_utf8, hmod, extractedBytes,
      -List.getElem?_eq_getElem]
    split
    · next cs heq => simp [heq]
    · next heq => simp [heq]

/-- `get_string` on a live string value: decode the extracted bytes. -/
theorem getString_str (env : Env) (v : Handle) (bytes : List Nat)
    (hv : env.vals.get? v = some (.str bytes)) :
    (get_string env v).2 =
      match utf8Decode (extractedBytes bytes) with
      | some cs => .ok (String.mk cs)
      | none => .error NapiError.UnableToCreateString :=
  getString_spec env v _ hv

/-- `get_string` on a live non-string value fails. -/
theorem getString_not_str (env : Env) (v : Handle) (u : HVal)
    (hv : env.vals.get? v = some u) (hns : ¬ u.isStr) :
    (get_string env v).2 = .error NapiError.UnableToCreateString := by
  have h := getString_spec env v u hv
  cases u
  case str bytes => exact absurd (show HVal.isStr (.str bytes) from trivial) hns
  all_goals exact h

/-! ## Claim theorems -/

/-- C1: round-trips.  `get_string` after `create_string_utf8` recovers the
string (whenever its UTF-8 byte length fits the `u32` size arithmetic of
`get_string`); the int32 read back from `create_int32` (through the
layer's generic `wrap_unsafe_get` reader over the ABI's int32 read) equals
the input for every `i32`; and `get_buffer_info` after
`create_buffer_copy` returns exactly the copied bytes and their length. -/
theorem roundtrip_create_read (env : Env) (s : String) (n : Int) (b : List Nat)
    (hs : (utf8Encode s).length < 4294967295)
    (hn1 : -2147483648 ≤ n) (hn2 : n < 2147483648) :
    (get_string (create_string_utf8 env s).1 (create_string_utf8 env s).2).2 =
      .ok s ∧
    (wrap_unsafe_get (create_int32 env n).1 (create_int32 env n).2
      napi_get_value_int32).2 = n ∧
    (get_buffer_info (create_buffer_copy env b).1 (create_buffer_copy env b).2).2 =
      (b, b.length) := by
  refine ⟨?_, ?_, ?_⟩
  · have hv : (create_string_utf8 env s).1.vals.get? (create_string_utf8 env s).2
        = some (.str (utf8Encode s)) := by
      simp only [create_string_utf8, napi_create_string_utf8, Env.alloc,
        Env.log, Env.assert]
      exact get?_append_self env.vals _ []
    rw [getString_str _ _ _ hv]
    have he : extractedBytes (utf8Encode s) = utf8Encode s := by
      unfold extractedBytes
      rw [Nat.mod_eq_of_lt (show (utf8Encode s).length < 4294967296 by omega),
        Nat.mod_eq_of_lt (show (utf8Encode s).length + 1 < 4294967296 by omega)]
      simp
    rw [he, utf8Decode_encode]
  · simp only [create_int32, wrap_unsafe_create, napi_create_int32, Env.alloc,
      Env.log, Env.assert, wrap_unsafe_get, napi_get_value_int32,
      get?_append_self]
    omega
  · simp only [create_buffer_copy, napi_create_buffer_copy, Env.alloc,
      Env.log, Env.assert, get_buffer_info, napi_get_buffer_info,
      get?_append_self]

/-- C1 witness at `s = "abc"`, `n = -7`, `b = [1,2,3]`. -/
theorem roundtrip_create_read_witness :
    ((utf8Encode "abc").length < 4294967295 ∧ -2147483648 ≤ (-7 : Int) ∧
      (-7 : Int) < 2147483648) ∧
    ((get_string (create_string_utf8 baseEnv "abc").1
        (create_string_utf8 baseEnv "abc").2).2 = .ok "abc" ∧
      (wrap_unsafe_get (create_int32 baseEnv (-7)).1 (create_int32 baseEnv (-7)).2
        napi_get_value_int32).2 = -7 ∧
      (get_buffer_info (create_buffer_copy baseEnv [1, 2, 3]).1
        (create_buffer_copy baseEnv [1, 2, 3]).2).2 = ([1, 2, 3], 3)) :=
  ⟨⟨by decide, by decide, by decide⟩,
    roundtrip_create_read baseEnv "abc" (-7) [1, 2, 3] (by decide) (by decide)
      (by decide)⟩

/-- C3: `get_string` on a live value errors exactly when the `length`
property read does not report ok (the receiver is `undefined`/`null`),
when the extraction ABI call reports "string expected" (the receiver is
not a string), or when the extracted bytes are not valid UTF-8; the error
is always `UnableToCreateString`, and the layer's error type has no other
kind. -/
theorem getString_error_characterization (env : Env) (v : Handle) (u : HVal)
    (hv : env.vals.get? v = some u) :
    (∀ e, (get_string env v).2 = .error e → e = .UnableToCreateString) ∧
    ((∃ e, (get_string env v).2 = .error e) ↔
      (lengthReadFails u ∨ notAString u ∨ decodeFails u)) ∧
    (∀ e : NapiError, e = .UnableToCreateString) := by
  refine ⟨fun e _ => by cases e; rfl, ?_, fun e => by cases e; rfl⟩
  cases u with
  | str bytes =>
    rw [getString_str _ _ _ hv]
    cases hdec : utf8Decode (extractedBytes bytes) with
    | some cs =>
      simp only [hdec]
      constructor
      · rintro ⟨e, he⟩
        cases he
      · rintro (h | h | h)
        · rcases h with h | h <;> cases h
        · exact absurd (show HVal.isStr (.str bytes) from trivial) h
        · rcases h with ⟨bytes2, hb, hd⟩
          cases hb
          rw [hdec] at hd
          cases hd
    | none =>
      simp only [hdec]
      exact iff_of_true ⟨.UnableToCreateString, trivial⟩
        (Or.inr (Or.inr ⟨bytes, rfl, hdec⟩))
  | undef =>
    rw [getString_not_str env v _ hv (fun h => h)]
    exact ⟨fun _ => Or.inl (Or.inl rfl), fun _ => ⟨_, rfl⟩⟩
  | nullv =>
    rw [getString_not_str env v _ hv (fun h => h)]
    exact ⟨fun _ => Or.inl (Or.inr rfl), fun _ => ⟨_, rfl⟩⟩
  | num n =>
    rw [getString_not_str env v _ hv (fun h => h)]
    exact ⟨fun _ => Or.inr (Or.inl (fun h => h)), fun _ => ⟨_, rfl⟩⟩
  | buf bytes =>
    rw [getString_not_str env v _ hv (fun h => h)]
    exact ⟨fun _ => Or.inr (Or.inl (fun h => h)), fun _ => ⟨_, rfl⟩⟩
  | arr elems =>
    rw [getString_not_str env v _ hv (fun h => h)]
    exact ⟨fun _ => Or.inr (Or.inl (fun h => h)), fun _ => ⟨_, rfl⟩⟩
  | obj props =>
    rw [getString_not_str env v _ hv (fun h => h)]
    exact ⟨fun _ => Or.inr (Or.inl (fun h => h)), fun _ => ⟨_, rfl⟩⟩
  | fn k =>
    rw [getString_not_str env v _ hv (fun h => h)]
    exact ⟨fun _ => Or.inr (Or.inl (fun h => h)), fun _ => ⟨_, rfl⟩⟩

/-- C3 witness: a number value (non-string) in a concrete environment. -/
theorem getString_error_characterization_witness :
    ((baseEnv.alloc (HVal.num 5)).1.vals.get? 2 = some (HVal.num 5)) ∧
    ((∀ e, (get_string (baseEnv.alloc (HVal.num 5)).1 2).2 = .error e →
        e = .UnableToCreateString) ∧
      ((∃ e, (get_string (baseEnv.alloc (HVal.num 5)).1 2).2 = .error e) ↔
        (lengthReadFails (HVal.num 5) ∨ notAString (HVal.num 5) ∨
          decodeFails (HVal.num 5))) ∧
      (∀ e : NapiError, e = .UnableToCreateString)) :=
  ⟨by decide, getString_error_characterization (baseEnv.alloc (HVal.num 5)).1 2
    (HVal.num 5) (by decide)⟩

/-- C9: `create_reference` pins the value with an initial reference count
of exactly 1 and hands back the new reference handle; resolving that
handle immediately with `get_reference_value` returns the very same value
handle. -/
theorem reference_roundtrip (env : Env) (v : Handle) :
    (create_reference env v).1.refs = env.refs ++ [(v, 1)] ∧
    (get_reference_value (create_reference env v).1
      (create_reference env v).2).2 = v := by
  refine ⟨rfl, ?_⟩
  simp [create_reference, napi_create_reference, Env.log, Env.assert,
    get_reference_value, napi_get_reference_value, get?_append_self,
    getElem?_append_self]

/-- C8: `get_arg` returns the argument at `arg_index` when one was
supplied, and degrades to the environment's `undefined` value (the result
of `get_undefined_value`) when `arg_index` is at or past the number of
supplied arguments — it never fails. -/
theorem getArg_spec (env : Env) (info : CbInfo) (i : Nat) :
    (get_arg env info i).2 =
      if i < info.args.length then info.args.getD i 0
      else (get_undefined_value env).2 := by
  simp only [get_arg, napi_get_cb_info, Env.log, Env.assert,
    get_undefined_value, napi_get_undefined]
  by_cases h : i < info.args.length
  · rw [if_pos h]
    have htake : (info.args.take (i + 1) ++
        List.replicate (i + 1 - info.args.length) 0).take info.args.length =
        (info.args.take (i + 1)).take info.args.length := by
      have : i + 1 - info.args.length = 0 := by omega
      rw [this]
      simp
    rw [htake, List.take_take]
    have hmin : info.args.length ⊓ (i + 1) = i + 1 := inf_eq_right.mpr (by omega)
    rw [hmin]
    have hget : (info.args.take (i + 1)).get? i = info.args.get? i := by
      rw [List.get?_eq_getElem?, List.get?_eq_getElem?]
      exact List.getElem?_take_of_lt (by omega)
    rw [hget]
    rcases hsome : info.args.get? i with _ | a
    · rw [List.get?_eq_getElem?, List.getElem?_eq_none_iff] at hsome
      omega
    · simp only [Option.getD_some]
      rw [List.getD, List.get?_eq_getElem?] at *
      rw [hsome]
      rfl
  · rw [if_neg h]
    have htake1 : info.args.take (i + 1) = info.args :=
      List.take_of_length_le (by omega)
    rw [htake1]
    have htake2 : (info.args ++ List.replicate (i + 1 - info.args.length) 0).take
        info.args.length = info.args := by
      rw [List.take_append_of_le_length (le_refl _)]
      simp
    rw [htake2]
    have hnone : info.args.get? i = none := by
      rw [List.get?_eq_getElem?, List.getElem?_eq_none_iff]
      omega
    rw [hnone]
    rfl

/-- C8 witness: two supplied arguments; index 1 hits the argument, index 5
degrades to `undefined`. -/
theorem getArg_spec_witness :
    ((get_arg baseEnv { this := 9, args := [4, 5] } 1).2 =
      if 1 < [4, 5].length then [4, 5].getD 1 0
      else (get_undefined_value baseEnv).2) ∧
    ((get_arg baseEnv { this := 9, args := [4, 5] } 5).2 =
      if 5 < [4, 5].length then [4, 5].getD 5 0
      else (get_undefined_value baseEnv).2) :=
  ⟨getArg_spec baseEnv { this := 9, args := [4, 5] } 1,
   getArg_spec baseEnv { this := 9, args := [4, 5] } 5⟩

theorem inv_next (env : Env) (a : NapiArray) (ha : a.Inv) :
    ((NapiArray.next env a).2.2).Inv := by
  unfold NapiArray.next
  split
  · exact ha
  · next hlt =>
    simp only [NapiArray.Inv]
    omega

theorem inv_applyOps :
    ∀ (ops : List ArrOp) (env : Env) (a : NapiArray), a.Inv →
      ((NapiArray.applyOps ops (env, a)).2).Inv := by
  intro ops
  induction ops with
  | nil => intro env a ha; exact ha
  | cons op ops ih =>
    intro env a ha
    cases op with
    | next =>
      show ((NapiArray.applyOps ops (NapiArray.applyOp env a .next)).2).Inv
      have h1 := inv_next env a ha
      unfold NapiArray.applyOp
      rcases hn : NapiArray.next env a with ⟨env1, o, a1⟩
      have : a1.Inv := by rw [hn] at h1; exact h1
      exact ih env1 a1 this
    | push e =>
      show ((NapiArray.applyOps ops (NapiArray.applyOp env a (.push e))).2).Inv
      unfold NapiArray.applyOp NapiArray.push
      exact ih _ a ha

/-- C10: both constructors establish `current_index ≤ length`, and any
sequence of `next`/`push` operations preserves it (`next` advances the
index only below the cached length; `push` touches no cursor field). -/
theorem cursor_invariant (env : Env) (h : Handle) (cap : Nat)
    (ops : List ArrOp) (a : NapiArray) (ha : a.Inv) :
    ((NapiArray.from_existing env h).2).Inv ∧
    ((NapiArray.with_capacity env cap).2).Inv ∧
    ((NapiArray.applyOps ops (env, a)).2).Inv :=
  ⟨Nat.zero_le _, Nat.zero_le _, inv_applyOps ops env a ha⟩

theorem vals_getElement (env : Env) (v : Handle) (i : Nat) :
    ((napi_get_element env v i).1).vals = env.vals := by
  unfold napi_get_element
  split <;> rfl

/-- `next` only logs and asserts: the heap is unchanged, and the cursor
keeps its array handle and cached length. -/
theorem next_parts (env : Env) (a : NapiArray) :
    ((NapiArray.next env a).1).vals = env.vals ∧
    ((NapiArray.next env a).2.2).array = a.array ∧
    ((NapiArray.next env a).2.2).length = a.length := by
  unfold NapiArray.next
  split
  · exact ⟨rfl, rfl, rfl⟩
  · rcases hge : napi_get_element env a.array a.current_index with ⟨e1, st, val⟩
    have hv := vals_getElement env a.array a.current_index
    rw [hge] at hv
    have hv2 : e1.vals = env.vals := hv
    simp [hge, Env.assert, hv2]

/-- In-bounds `next` yields the element at `current_index` and advances. -/
theorem next_yield (env : Env) (a : NapiArray) (elems : List Handle)
    (hv : env.vals.get? a.array = some (.arr elems))
    (hlt : a.current_index < a.length) :
    (NapiArray.next env a).2.1 = some (elems.getD a.current_index 0) ∧
    (NapiArray.next env a).2.2 = { a with current_index := a.current_index + 1 } := by
  unfold NapiArray.next
  rw [if_neg (by omega)]
  have hv2 : env.vals[a.array]? = some (.arr elems) := by
    rw [← List.get?_eq_getElem?]
    exact hv
  simp [napi_get_element, hv, hv2, Env.log, Env.assert]

/-- Exhausted `next` signals termination and leaves everything unchanged. -/
theorem next_exhausted (env : Env) (a : NapiArray)
    (hle : a.length ≤ a.current_index) :
    NapiArray.next env a = (env, none, a) := by
  unfold NapiArray.next
  rw [if_pos hle]

/-- Running the cursor with enough fuel yields exactly the remaining
elements, in index order, and parks the index at the snapshotted length. -/
theorem nexts_run :
    ∀ (fuel : Nat) (env : Env) (a : NapiArray) (elems : List Handle),
      env.vals.get? a.array = some (.arr elems) →
      a.length = elems.length →
      a.current_index ≤ elems.length →
      elems.length ≤ a.current_index + fuel →
      (NapiArray.nexts env a fuel).2.1 = elems.drop a.current_index ∧
      (NapiArray.nexts env a fuel).2.2 = { a with current_index := elems.length } := by
  intro fuel
  induction fuel with
  | zero =>
    intro env a elems hv hlen hle hfuel
    have hci : a.current_index = elems.length := by omega
    constructor
    · show ([] : List Handle) = elems.drop a.current_index
      rw [hci, List.drop_length]
    · show a = { a with current_index := elems.length }
      cases a
      simp_all
  | succ fuel ih =>
    intro env a elems hv hlen hle hfuel
    by_cases hci : a.current_index < a.length
    · have hy := next_yield env a elems hv hci
      rcases hn : NapiArray.next env a with ⟨env1, o, a1⟩
      rw [hn] at hy
      have ho : o = some (elems.getD a.current_index 0) := hy.1
      have ha1 : a1 = { a with current_index := a.current_index + 1 } := hy.2
      have hvals : env1.vals = env.vals := by
        have hp := (next_parts env a).1
        rw [hn] at hp
        exact hp
      subst ho
      subst ha1
      have hrec := ih env1 { a with current_index := a.current_index + 1 } elems
        (by simpa [hvals] using hv)
        (by simpa using hlen)
        (by simp; omega)
        (by simp; omega)
      rcases hns : NapiArray.nexts env1
          { a with current_index := a.current_index + 1 } fuel
        with ⟨env2, hs, a2⟩
      rw [hns] at hrec
      have hhs : hs = elems.drop (a.current_index + 1) := by
        have h1 := hrec.1
        simpa using h1
      have ha2 : a2 = { a with current_index := elems.length } := hrec.2
      simp only [NapiArray.nexts, hn, hns]
      constructor
      · show elems.getD a.current_index 0 :: hs = elems.drop a.current_index
        rw [hhs]
        have hlt : a.current_index < elems.length := by omega
        rw [List.getD_eq_getElem?_getD, List.getElem?_eq_getElem hlt]
        simp only [Option.getD_some]
        rw [List.drop_eq_getElem_cons hlt]
      · exact ha2
    · have hn : NapiArray.next env a = (env, none, a) :=
        next_exhausted env a (by omega)
      have hci2 : a.current_index = elems.length := by omega
      simp only [NapiArray.nexts, hn]
      constructor
      · show ([] : List Handle) = elems.drop a.current_index
        rw [hci2, List.drop_length]
      · show a = { a with current_index := elems.length }
        cases a
        simp_all

/-- C2: a cursor from `from_existing` over an array of `N` elements (for
`N` within the `u32` length the ABI reports) yields exactly those `N`
elements in index order under any sufficient number of `next` calls, and
every call on an exhausted cursor returns `none` leaving both the cursor
and the environment unchanged. -/
theorem fromExisting_yields_all (env : Env) (h : Handle) (elems : List Handle)
    (hv : env.vals.get? h = some (.arr elems))
    (hlen : elems.length < 4294967296) :
    ((NapiArray.from_existing env h).2).length = elems.length ∧
    ((NapiArray.from_existing env h).2).current_index = 0 ∧
    (∀ k, (NapiArray.nexts (NapiArray.from_existing env h).1
      (NapiArray.from_existing env h).2 (elems.length + k)).2.1 = elems) ∧
    (∀ (env2 : Env) (b : NapiArray), b.length ≤ b.current_index →
      NapiArray.next env2 b = (env2, none, b)) := by
  have hfe : NapiArray.from_existing env h =
      ((env.log (.getArrayLength h .ok (elems.length % 4294967296))).assert true,
        { array := h, length := elems.length % 4294967296, current_index := 0 }) := by
    unfold NapiArray.from_existing napi_get_array_length
    rw [hv]
    rfl
  have hmod : elems.length % 4294967296 = elems.length := Nat.mod_eq_of_lt hlen
  refine ⟨by rw [hfe]; exact hmod, by rw [hfe], ?_, ?_⟩
  · intro k
    have hrun := nexts_run (elems.length + k)
      ((env.log (.getArrayLength h .ok (elems.length % 4294967296))).assert true)
      { array := h, length := elems.length % 4294967296, current_index := 0 }
      elems hv (by simpa using hmod) (Nat.zero_le _) (by omega)
    rw [hfe]
    rw [hrun.1]
    exact List.drop_zero elems
  · intro env2 b hle
    exact next_exhausted env2 b hle

/-- C2 witness: the three-element array `[5, 6, 7]`. -/
theorem fromExisting_yields_all_witness :
    ((baseEnv.alloc (.arr [5, 6, 7])).1.vals.get? 2 = some (.arr [5, 6, 7]) ∧
      ([5, 6, 7] : List Handle).length < 4294967296) ∧
    (((NapiArray.from_existing (baseEnv.alloc (.arr [5, 6, 7])).1 2).2).length = 3 ∧
      ((NapiArray.from_existing (baseEnv.alloc (.arr [5, 6, 7])).1 2).2).current_index = 0 ∧
      (∀ k, (NapiArray.nexts (NapiArray.from_existing (baseEnv.alloc (.arr [5, 6, 7])).1 2).1
        (NapiArray.from_existing (baseEnv.alloc (.arr [5, 6, 7])).1 2).2 (3 + k)).2.1
        = [5, 6, 7]) ∧
      (∀ (env2 : Env) (b : NapiArray), b.length ≤ b.current_index →
        NapiArray.next env2 b = (env2, none, b))) :=
  ⟨⟨by decide, by decide⟩,
    fromExisting_yields_all (baseEnv.alloc (.arr [5, 6, 7])).1 2 [5, 6, 7]
      (by decide) (by decide)⟩

/-- The element `next` reads depends only on the heap entry of the
cursor's array handle. -/
theorem getElement_val (env : Env) (v : Handle) (i : Nat) :
    (napi_get_element env v i).2.2 =
      match env.vals.get? v with
      | some (.arr elems) => elems.getD i 0
      | some _ => 0
      | none => 0 := by
  unfold napi_get_element
  split <;> simp_all

/-- The observable part of `next` (yielded element and new cursor). -/
theorem next_snd (env : Env) (a : NapiArray) :
    (NapiArray.next env a).2 =
      if a.length ≤ a.current_index then (none, a)
      else (some ((napi_get_element env a.array a.current_index).2.2),
        { a with current_index := a.current_index + 1 }) := by
  unfold NapiArray.next
  split
  · rfl
  · rcases hge : napi_get_element env a.array a.current_index with ⟨e1, st, val⟩
    simp [hge, Env.assert]

/-- Environments agreeing on the cursor's array produce the same `next`
observation. -/
theorem next_snd_congr (env env' : Env) (a : NapiArray)
    (h : env.vals.get? a.array = env'.vals.get? a.array) :
    (NapiArray.next env a).2 = (NapiArray.next env' a).2 := by
  rw [next_snd, next_snd, getElement_val, getElement_val, h]

/-- Environments agreeing on the cursor's array yield the same elements
under iteration. -/
theorem nexts_congr :
    ∀ (fuel : Nat) (env env' : Env) (a : NapiArray),
      env.vals.get? a.array = env'.vals.get? a.array →
      (NapiArray.nexts env a fuel).2 = (NapiArray.nexts env' a fuel).2 := by
  intro fuel
  induction fuel with
  | zero => intro env env' a h; rfl
  | succ fuel ih =>
    intro env env' a h
    have hsnd := next_snd_congr env env' a h
    rcases hn : NapiArray.next env a with ⟨e1, o, a1⟩
    rcases hn' : NapiArray.next env' a with ⟨e1', o', a1'⟩
    rw [hn, hn'] at hsnd
    have ho : o = o' := congrArg Prod.fst hsnd
    have ha1 : a1 = a1' := congrArg Prod.snd hsnd
    have he1 : e1.vals = env.vals := by
      have hp := (next_parts env a).1
      rw [hn] at hp
      exact hp
    have he1' : e1'.vals = env'.vals := by
      have hp := (next_parts env' a).1
      rw [hn'] at hp
      exact hp
    have harr : a1.array = a.array := by
      have hp := (next_parts env a).2.1
      rw [hn] at hp
      exact hp
    simp only [NapiArray.nexts, hn, hn']
    cases o with
    | none =>
      cases ho
      show (([] : List Handle), a1) = (([] : List Handle), a1')
      rw [ha1]
    | some x =>
      cases ho
      subst ha1
      have hrec := ih e1 e1' a1 (by rw [he1, he1', harr]; exact h)
      show (x :: (NapiArray.nexts e1 a1 fuel).2.1, (NapiArray.nexts e1 a1 fuel).2.2)
          = (x :: (NapiArray.nexts e1' a1 fuel).2.1, (NapiArray.nexts e1' a1 fuel).2.2)
      rw [show (NapiArray.nexts e1 a1 fuel).2.1 = (NapiArray.nexts e1' a1 fuel).2.1
          from congrArg Prod.fst hrec,
        show (NapiArray.nexts e1 a1 fuel).2.2 = (NapiArray.nexts e1' a1 fuel).2.2
          from congrArg Prod.snd hrec]

theorem getNamedProperty_extendsVals (env : Env) (o : Handle) (name : String) :
    ∃ l, ((napi_get_named_property env o name).1).vals = env.vals ++ l := by
  unfold napi_get_named_property
  split <;> (try split) <;>
    first
      | exact ⟨[HVal.fn .slice], rfl⟩
      | exact ⟨[], (List.append_nil _).symm⟩

theorem callFunction_extendsVals (env : Env) (recv fnv : Handle)
    (args : List Handle) :
    ∃ l, ((napi_call_function env recv fnv args).1).vals = env.vals ++ l := by
  unfold napi_call_function
  split <;> (try split) <;>
    first
      | exact ⟨[_], rfl⟩
      | exact ⟨[], (List.append_nil _).symm⟩

/-- `push_array` only appends fresh values to the heap (the host `slice`
call returns a copy); every pre-existing heap entry is untouched. -/
theorem push_array_extendsVals (env : Env) (t e : Handle) :
    ∃ l, (push_array env t e).vals = env.vals ++ l := by
  unfold push_array
  rcases hnp : napi_get_named_property env t "slice" with ⟨env1, st, fnh⟩
  obtain ⟨l1, hl1⟩ := getNamedProperty_extendsVals env t "slice"
  rw [hnp] at hl1
  simp only [hnp]
  rcases hcf : napi_call_function (env1.assert (decide (st = Status.ok))) t fnh [e]
    with ⟨env3, st2, r⟩
  obtain ⟨l2, hl2⟩ :=
    callFunction_extendsVals (env1.assert (decide (st = Status.ok))) t fnh [e]
  rw [hcf] at hl2
  simp only [hcf]
  refine ⟨l1 ++ l2, ?_⟩
  show env3.vals = env.vals ++ (l1 ++ l2)
  rw [hl2]
  show env1.vals ++ l2 = env.vals ++ (l1 ++ l2)
  rw [hl1, List.append_assoc]

/-- C6 (amended): `push` leaves the cursor's cached `length` and
`current_index` unchanged, leaves the underlying array value itself
unchanged (the property it calls is the host `"slice"`, which returns a
copy rather than appending), and consequently iterating the same cursor
yields exactly what it would have yielded before the push — pushed
elements are never observed. -/
theorem push_frame (env : Env) (a : NapiArray) (e : Handle)
    (elems : List Handle)
    (hv : env.vals.get? a.array = some (.arr elems)) :
    (NapiArray.push env a e).2 = a ∧
    (NapiArray.push env a e).1.vals.get? a.array = some (.arr elems) ∧
    (∀ fuel, (NapiArray.nexts (NapiArray.push env a e).1 a fuel).2.1 =
      (NapiArray.nexts env a fuel).2.1) := by
  have hext := push_array_extendsVals env a.array e
  obtain ⟨l, hl⟩ := hext
  have hpush : (NapiArray.push env a e).1 = push_array env a.array e := rfl
  have hget : (NapiArray.push env a e).1.vals.get? a.array = some (.arr elems) := by
    rw [hpush, hl]
    exact get?_append_some hv l
  refine ⟨rfl, hget, ?_⟩
  intro fuel
  have hc := nexts_congr fuel (NapiArray.push env a e).1 env a (by rw [hget, hv])
  exact congrArg Prod.fst hc

/-- C6 witness: a one-element array; after `push` the cursor and the
yielded elements are unchanged. -/
theorem push_frame_witness :
    ((baseEnv.alloc (.arr [0])).1.vals.get?
        ({ array := 2, current_index := 0, length := 1 } : NapiArray).array =
      some (.arr [0])) ∧
    ((NapiArray.push (baseEnv.alloc (.arr [0])).1
        { array := 2, current_index := 0, length := 1 } 1).2 =
      { array := 2, current_index := 0, length := 1 } ∧
    (NapiArray.push (baseEnv.alloc (.arr [0])).1
        { array := 2, current_index := 0, length := 1 } 1).1.vals.get? 2 =
      some (.arr [0]) ∧
    (∀ fuel, (NapiArray.nexts (NapiArray.push (baseEnv.alloc (.arr [0])).1
        { array := 2, current_index := 0, length := 1 } 1).1
        { array := 2, current_index := 0, length := 1 } fuel).2.1 =
      (NapiArray.nexts (baseEnv.alloc (.arr [0])).1
        { array := 2, current_index := 0, length := 1 } fuel).2.1)) :=
  ⟨by decide,
    push_frame (baseEnv.alloc (.arr [0])).1
      { array := 2, current_index := 0, length := 1 } 1 [0] (by decide)⟩

/-- C6 counterexample to the claim as stated: `push` does not append to
the underlying array value.  After pushing onto a freshly created empty
array, the array value still has no elements. -/
theorem push_does_not_append_counterexample :
    ((NapiArray.push (NapiArray.with_capacity baseEnv 0).1
        (NapiArray.with_capacity baseEnv 0).2 1).1.vals.get?
      ((NapiArray.with_capacity baseEnv 0).2.array) = some (.arr [])) ∧
    ¬ ((NapiArray.push (NapiArray.with_capacity baseEnv 0).1
        (NapiArray.with_capacity baseEnv 0).2 1).1.vals.get?
      ((NapiArray.with_capacity baseEnv 0).2.array) = some (.arr [1])) := by
  decide

/-- C7: both `push_array` and `slice_buffer` resolve the property named
`"slice"` off their target and call the resolved function with the target
as receiver: `slice_buffer` passes exactly the two int32 values freshly
created from its bounds and returns the call's return value (the handle
the `callFunction` trace entry reports); `push_array` passes exactly the
element; and each of the two ABI steps is followed by its own ok-status
assertion (`slice_buffer`'s first two asserts come from the two
`create_int32` calls). -/
theorem slice_protocol (env : Env) (v : Handle) (bytes : List Nat)
    (b e : Nat) (arrv : Handle) (elems : List Handle) (el : Handle)
    (hv : env.vals.get? v = some (.buf bytes))
    (hav : env.vals.get? arrv = some (.arr elems)) :
    ((slice_buffer env v b e).2 = env.vals.length + 3 ∧
     (slice_buffer env v b e).1.trace = env.trace ++
       [.createInt32 (i32ofNat b) env.vals.length,
        .createInt32 (i32ofNat e) (env.vals.length + 1),
        .getNamedProperty v (utf8Encode "slice") .ok (env.vals.length + 2),
        .callFunction v (env.vals.length + 2)
          [env.vals.length, env.vals.length + 1] .ok (env.vals.length + 3)] ∧
     (slice_buffer env v b e).1.asserts = env.asserts ++ [true, true, true, true]) ∧
    ((push_array env arrv el).trace = env.trace ++
       [.getNamedProperty arrv (utf8Encode "slice") .ok env.vals.length,
        .callFunction arrv env.vals.length [el] .ok (env.vals.length + 1)] ∧
     (push_array env arrv el).asserts = env.asserts ++ [true, true]) := by
  have hv0 : env.vals[v]? = some (HVal.buf bytes) := by
    rw [← List.get?_eq_getElem?]
    exact hv
  have hv1 : ∀ l2, (env.vals ++ l2)[v]? = some (HVal.buf bytes) :=
    getElem?_append_some hv0
  have ha0 : env.vals[arrv]? = some (HVal.arr elems) := by
    rw [← List.get?_eq_getElem?]
    exact hav
  have ha1 : ∀ l2, (env.vals ++ l2)[arrv]? = some (HVal.arr elems) :=
    getElem?_append_some ha0
  have hb0 : (env.vals ++ [HVal.num (i32ofNat b), HVal.num (i32ofNat e),
      HVal.fn .slice])[env.vals.length]? = some (HVal.num (i32ofNat b)) :=
    getElem?_append_self env.vals _ _
  have hb1 : (env.vals ++ [HVal.num (i32ofNat b), HVal.num (i32ofNat e),
      HVal.fn .slice])[env.vals.length + 1]? = some (HVal.num (i32ofNat e)) := by
    have h' := getElem?_append_self (env.vals ++ [HVal.num (i32ofNat b)])
      (HVal.num (i32ofNat e)) [HVal.fn .slice]
    simpa [-List.getElem?_eq_getElem] using h'
  have hfn : (env.vals ++ [HVal.num (i32ofNat b), HVal.num (i32ofNat e),
      HVal.fn .slice])[env.vals.length + 2]? = some (HVal.fn .slice) := by
    have h' := getElem?_append_self
      (env.vals ++ [HVal.num (i32ofNat b), HVal.num (i32ofNat e)])
      (HVal.fn .slice) []
    simpa [-List.getElem?_eq_getElem] using h'
  have hfa : (env.vals ++ [HVal.fn .slice])[env.vals.length]? =
      some (HVal.fn .slice) := getElem?_append_self env.vals _ []
  refine ⟨?_, ?_⟩
  · refine ⟨?_, ?_, ?_⟩ <;>
      simp [slice_buffer, create_int32, wrap_unsafe_create, napi_create_int32,
        napi_get_named_property, napi_call_function, sliceCall, jsToIndex,
        Env.alloc, Env.log, Env.assert, hv0, hv1, hb0, hb1, hfn,
        -List.getElem?_eq_getElem]
  · refine ⟨?_, ?_⟩ <;>
      simp [push_array, napi_get_named_property, napi_call_function, sliceCall,
        jsToIndex, Env.alloc, Env.log, Env.assert, ha0, ha1, hfa,
        -List.getElem?_eq_getElem]

/-- C7 witness: buffer `[1,2,3,4,5]` sliced between 1 and 4, and a push of
element 0 onto an empty array, in a concrete environment holding both. -/
theorem slice_protocol_witness :
    (((baseEnv.alloc (.buf [1, 2, 3, 4, 5])).1.alloc (.arr [])).1.vals.get? 2 =
        some (.buf [1, 2, 3, 4, 5]) ∧
     ((baseEnv.alloc (.buf [1, 2, 3, 4, 5])).1.alloc (.arr [])).1.vals.get? 3 =
        some (.arr [])) ∧
    (((slice_buffer ((baseEnv.alloc (.buf [1, 2, 3, 4, 5])).1.alloc (.arr [])).1
          2 1 4).2 = 7 ∧
      (slice_buffer ((baseEnv.alloc (.buf [1, 2, 3, 4, 5])).1.alloc (.arr [])).1
          2 1 4).1.trace =
        ((baseEnv.alloc (.buf [1, 2, 3, 4, 5])).1.alloc (.arr [])).1.trace ++
        [.createInt32 (i32ofNat 1) 4, .createInt32 (i32ofNat 4) 5,
         .getNamedProperty 2 (utf8Encode "slice") .ok 6,
         .callFunction 2 6 [4, 5] .ok 7] ∧
      (slice_buffer ((baseEnv.alloc (.buf [1, 2, 3, 4, 5])).1.alloc (.arr [])).1
          2 1 4).1.asserts =
        ((baseEnv.alloc (.buf [1, 2, 3, 4, 5])).1.alloc (.arr [])).1.asserts ++
          [true, true, true, true]) ∧
     ((push_array ((baseEnv.alloc (.buf [1, 2, 3, 4, 5])).1.alloc (.arr [])).1
          3 0).trace =
        ((baseEnv.alloc (.buf [1, 2, 3, 4, 5])).1.alloc (.arr [])).1.trace ++
        [.getNamedProperty 3 (utf8Encode "slice") .ok 4,
         .callFunction 3 4 [0] .ok 5] ∧
      (push_array ((baseEnv.alloc (.buf [1, 2, 3, 4, 5])).1.alloc (.arr [])).1
          3 0).asserts =
        ((baseEnv.alloc (.buf [1, 2, 3, 4, 5])).1.alloc (.arr [])).1.asserts ++
          [true, true])) := by
  refine ⟨⟨by decide, by decide⟩, ?_⟩
  exact slice_protocol ((baseEnv.alloc (.buf [1, 2, 3, 4, 5])).1.alloc (.arr [])).1
    2 [1, 2, 3, 4, 5] 1 4 3 [] 0 (by decide) (by decide)

/-- C10 witness: a concrete cursor over a two-element array, exercising a
`next`/`push`/`next` sequence. -/
theorem cursor_invariant_witness :
    (NapiArray.Inv { array := 2, current_index := 0, length := 2 }) ∧
    (((NapiArray.from_existing (baseEnv.alloc (.arr [0, 1])).1 2).2).Inv ∧
     ((NapiArray.with_capacity (baseEnv.alloc (.arr [0, 1])).1 3).2).Inv ∧
     ((NapiArray.applyOps [.next, .push 1, .next]
        ((baseEnv.alloc (.arr [0, 1])).1,
          { array := 2, current_index := 0, length := 2 })).2).Inv) :=
  ⟨by decide,
    cursor_invariant (baseEnv.alloc (.arr [0, 1])).1 2 3 [.next, .push 1, .next]
      { array := 2, current_index := 0, length := 2 } (by decide)⟩

/-- C4: on a live string value, `get_string` performs exactly the
three-step protocol, visible in its ABI trace: create the `"length"` key
string, read the value's `length` property through generic property
access with that key (not a string-specific length call), read the
resulting number as a `u32`, then extract UTF-8 with a buffer of
`length + 1` bytes (room for the NUL terminator), with the ABI reporting
`min (bufsize - 1) length` bytes written; the buffer is truncated to the
written count before decoding, so on success the returned string's UTF-8
encoding never holds more bytes than the ABI reported written. -/
theorem getString_protocol (env : Env) (v : Handle) (bytes : List Nat)
    (hv : env.vals.get? v = some (.str bytes)) :
    (get_string env v).1.trace = env.trace ++
      [.createStringUtf8 lengthKey env.vals.length,
       .getProperty v env.vals.length .ok (env.vals.length + 1),
       .getValueUint32 (env.vals.length + 1) .ok (bytes.length % 4294967296),
       .getValueStringUtf8 v ((bytes.length % 4294967296 + 1) % 4294967296) .ok
         (min ((bytes.length % 4294967296 + 1) % 4294967296 - 1) bytes.length)] ∧
    (∀ s, (get_string env v).2 = .ok s →
      (utf8Encode s).length ≤
        min ((bytes.length % 4294967296 + 1) % 4294967296 - 1) bytes.length) := by
  have hv0 : env.vals[v]? = some (HVal.str bytes) := by
    rw [← List.get?_eq_getElem?]
    exact hv
  have hv1 : ∀ l2, (env.vals ++ l2)[v]? = some (HVal.str bytes) :=
    getElem?_append_some hv0
  have hnum : (env.vals ++ [HVal.str lengthKey,
      HVal.num (bytes.length : Int)])[env.vals.length + 1]? =
      some (HVal.num (bytes.length : Int)) := by
    have h' := getElem?_append_self (env.vals ++ [HVal.str lengthKey])
      (HVal.num (bytes.length : Int)) []
    simpa [-List.getElem?_eq_getElem] using h'
  have hmod : ((bytes.length : Int) % 4294967296).toNat =
      bytes.length % 4294967296 := by omega
  constructor
  · simp [get_string, create_length_string, napi_get_property,
      getElem?_append_self, hv1, hnum, Env.alloc, Env.log, Env.assert,
      napi_get_value_uint32, napi_get_value_string_utf8, hmod,
      -List.getElem?_eq_getElem]
    split <;> rfl
  · intro s hs
    rw [getString_str env v bytes hv] at hs
    rcases hdec : utf8Decode (extractedBytes bytes) with _ | cs
    · rw [hdec] at hs
      cases hs
    · rw [hdec] at hs
      cases hs
      have henc : utf8EncodeChars cs = extractedBytes bytes :=
        utf8EncodeChars_decode hdec
      show (utf8EncodeChars cs).length ≤ _
      rw [henc, extractedBytes, List.length_take]
      omega

/-- C4 witness: the two-byte string value `"hi"`. -/
theorem getString_protocol_witness :
    ((baseEnv.alloc (.str (utf8Encode "hi"))).1.vals.get? 2 =
      some (.str (utf8Encode "hi"))) ∧
    ((get_string (baseEnv.alloc (.str (utf8Encode "hi"))).1 2).1.trace =
      (baseEnv.alloc (.str (utf8Encode "hi"))).1.trace ++
      [.createStringUtf8 lengthKey 3,
       .getProperty 2 3 .ok 4,
       .getValueUint32 4 .ok ((utf8Encode "hi").length % 4294967296),
       .getValueStringUtf8 2
         (((utf8Encode "hi").length % 4294967296 + 1) % 4294967296) .ok
         (min (((utf8Encode "hi").length % 4294967296 + 1) % 4294967296 - 1)
           (utf8Encode "hi").length)] ∧
    (∀ s, (get_string (baseEnv.alloc (.str (utf8Encode "hi"))).1 2).2 = .ok s →
      (utf8Encode s).length ≤
        min (((utf8Encode "hi").length % 4294967296 + 1) % 4294967296 - 1)
          (utf8Encode "hi").length)) :=
  ⟨by decide, getString_protocol (baseEnv.alloc (.str (utf8Encode "hi"))).1 2
    (utf8Encode "hi") (by decide)⟩

/-! ## Ordered-map lemmas for `get_object_map` -/

theorem mem_insertSorted_sub :
    ∀ (m : List (String × Handle)) (k : String) (v : Handle) (q : String × Handle),
      q ∈ insertSorted m k v → q = (k, v) ∨ q ∈ m := by
  intro m
  induction m with
  | nil =>
    intro k v q hq
    simp [insertSorted] at hq
    exact Or.inl hq
  | cons p rest ih =>
    intro k v q hq
    rcases p with ⟨k1, v1⟩
    rw [insertSorted] at hq
    by_cases h1 : k < k1
    · rw [if_pos h1] at hq
      simp only [List.mem_cons] at hq ⊢
      tauto
    · by_cases h2 : k1 < k
      · rw [if_neg h1, if_pos h2] at hq
        simp only [List.mem_cons] at hq ⊢
        rcases hq with h | h
        · tauto
        · rcases ih k v q h with h' | h' <;> tauto
      · rw [if_neg h1, if_neg h2] at hq
        simp only [List.mem_cons] at hq ⊢
        tauto

theorem insertSorted_pairwise :
    ∀ (m : List (String × Handle)) (k : String) (v : Handle),
      List.Pairwise (fun p q : String × Handle => p.1 < q.1) m →
      List.Pairwise (fun p q : String × Handle => p.1 < q.1) (insertSorted m k v) := by
  intro m
  induction m with
  | nil => intro k v _; simp [insertSorted]
  | cons p rest ih =>
    intro k v hp
    rcases p with ⟨k1, v1⟩
    rw [insertSorted]
    by_cases h1 : k < k1
    · rw [if_pos h1]
      rw [List.pairwise_cons]
      refine ⟨?_, hp⟩
      intro q hq
      rcases List.mem_cons.mp hq with rfl | hq'
      · exact h1
      · rw [List.pairwise_cons] at hp
        exact lt_trans h1 (hp.1 q hq')
    · by_cases h2 : k1 < k
      · rw [if_neg h1, if_pos h2]
        rw [List.pairwise_cons] at hp
        rw [List.pairwise_cons]
        constructor
        · intro q hq
          rcases mem_insertSorted_sub rest k v q hq with rfl | hq'
          · exact h2
          · exact hp.1 q hq'
        · exact ih k v hp.2
      · have hk : k = k1 := le_antisymm (not_lt.mp h2) (not_lt.mp h1)
        rw [if_neg h1, if_neg h2]
        rw [List.pairwise_cons] at hp
        rw [List.pairwise_cons]
        subst hk
        exact hp

theorem mem_insertSorted :
    ∀ (m : List (String × Handle)) (k : String) (v : Handle),
      k ∉ m.map Prod.fst → ∀ q : String × Handle,
      (q ∈ insertSorted m k v ↔ q = (k, v) ∨ q ∈ m) := by
  intro m
  induction m with
  | nil =>
    intro k v _ q
    simp [insertSorted]
  | cons p rest ih =>
    intro k v hfresh q
    rcases p with ⟨k1, v1⟩
    simp only [List.map_cons, List.mem_cons] at hfresh
    push_neg at hfresh
    rw [insertSorted]
    by_cases h1 : k < k1
    · rw [if_pos h1]
      simp only [List.mem_cons]
    · by_cases h2 : k1 < k
      · rw [if_neg h1, if_pos h2]
        simp only [List.mem_cons]
        rw [ih k v hfresh.2 q]
        tauto
      · exact absurd (le_antisymm (not_lt.mp h2) (not_lt.mp h1)) hfresh.1

theorem mem_of_listLookup :
    ∀ (props : List (List Nat × Handle)) (bytes : List Nat) (w : Handle),
      listLookup props bytes = some w → (bytes, w) ∈ props := by
  intro props
  induction props with
  | nil => intro bytes w h; cases h
  | cons p rest ih =>
    intro bytes w h
    rcases p with ⟨k, v⟩
    rw [listLookup] at h
    by_cases hk : k = bytes
    · rw [if_pos hk] at h
      cases h
      subst hk
      exact List.mem_cons_self _ _
    · rw [if_neg hk] at h
      exact List.mem_cons_of_mem _ (ih bytes w h)

theorem listLookup_of_mem :
    ∀ (props : List (List Nat × Handle)),
      (props.map Prod.fst).Nodup → ∀ (bytes : List Nat) (w : Handle),
      (bytes, w) ∈ props → listLookup props bytes = some w := by
  intro props
  induction props with
  | nil => intro _ bytes w h; cases h
  | cons p rest ih =>
    intro hnd bytes w h
    rcases p with ⟨k, v⟩
    simp only [List.map_cons, List.nodup_cons] at hnd
    rw [listLookup]
    rcases List.mem_cons.mp h with heq | hmem
    · cases heq
      rw [if_pos rfl]
    · by_cases hk : k = bytes
      · subst hk
        exact absurd (List.mem_map.mpr ⟨(k, w), hmem, rfl⟩) hnd.1
      · rw [if_neg hk]
        exact ih hnd.2 bytes w hmem

theorem extractedBytes_of_lt {bytes : List Nat} (h : bytes.length < 4294967295) :
    extractedBytes bytes = bytes := by
  unfold extractedBytes
  rw [Nat.mod_eq_of_lt (by omega), Nat.mod_eq_of_lt (by omega)]
  simp

theorem decodeName_of_lt {bytes : List Nat} (h : bytes.length < 4294967295) :
    decodeName bytes = (utf8Decode bytes).map String.mk := by
  rw [decodeName, extractedBytes_of_lt h]

/-- Distinct short names decode to distinct strings (strict UTF-8 is a
canonical code). -/
theorem decodeName_inj {n1 n2 : List Nat} (h1 : n1.length < 4294967295)
    (h2 : n2.length < 4294967295) {s : String}
    (hd1 : decodeName n1 = some s) (hd2 : decodeName n2 = some s) : n1 = n2 := by
  rw [decodeName_of_lt h1] at hd1
  rw [decodeName_of_lt h2] at hd2
  rcases Option.map_eq_some'.mp hd1 with ⟨cs1, hc1, hs1⟩
  rcases Option.map_eq_some'.mp hd2 with ⟨cs2, hc2, hs2⟩
  have hcs : cs1 = cs2 := congrArg String.data (hs1.trans hs2.symm)
  subst hcs
  exact utf8Decode_inj hc1 hc2

/-- Order and membership of the pure name-fold. -/
theorem mapInserts_spec :
    ∀ (names : List (List Nat)) (props : List (List Nat × Handle))
      (m : List (String × Handle)),
      List.Pairwise (fun p q : String × Handle => p.1 < q.1) m →
      names.Nodup →
      (∀ n, n ∈ names → n.length < 4294967295) →
      (∀ s, s ∈ m.map Prod.fst → ∀ n, n ∈ names → decodeName n ≠ some s) →
      List.Pairwise (fun p q : String × Handle => p.1 < q.1)
        (mapInserts props m names) ∧
      (∀ s w, (s, w) ∈ mapInserts props m names ↔
        (s, w) ∈ m ∨ ∃ n, n ∈ names ∧ decodeName n = some s ∧
          w = (listLookup props n).getD 0) := by
  intro names
  induction names with
  | nil =>
    intro props m hm _ _ _
    refine ⟨hm, fun s w => ?_⟩
    simp [mapInserts]
  | cons n rest ih =>
    intro props m hm hnd hshort hfresh
    have hnd' : rest.Nodup := hnd.of_cons
    have hnmem : n ∉ rest := (List.nodup_cons.mp hnd).1
    have hshort' : ∀ n', n' ∈ rest → n'.length < 4294967295 :=
      fun n' h => hshort n' (List.mem_cons_of_mem _ h)
    rw [mapInserts]
    rcases hdec : decodeName n with _ | s0
    · have hrec := ih props m hm hnd' hshort'
        (fun s hs n' hn' => hfresh s hs n' (List.mem_cons_of_mem _ hn'))
      refine ⟨hrec.1, fun s w => ?_⟩
      rw [hrec.2 s w]
      constructor
      · rintro (h | ⟨n', hn', hd, hw⟩)
        · exact Or.inl h
        · exact Or.inr ⟨n', List.mem_cons_of_mem _ hn', hd, hw⟩
      · rintro (h | ⟨n', hn', hd, hw⟩)
        · exact Or.inl h
        · rcases List.mem_cons.mp hn' with rfl | hn''
          · rw [hdec] at hd
            cases hd
          · exact Or.inr ⟨n', hn'', hd, hw⟩
    · have hfresh0 : s0 ∉ m.map Prod.fst :=
        fun hs0 => hfresh s0 hs0 n (List.mem_cons_self _ _) hdec
      have hm' := insertSorted_pairwise m s0 ((listLookup props n).getD 0) hm
      have hfresh' : ∀ s,
          s ∈ (insertSorted m s0 ((listLookup props n).getD 0)).map Prod.fst →
          ∀ n', n' ∈ rest → decodeName n' ≠ some s := by
        intro s hs n' hn' hd
        rcases List.mem_map.mp hs with ⟨q, hq, hq1⟩
        rcases mem_insertSorted_sub m s0 _ q hq with rfl | hq'
        · have hs0 : s = s0 := hq1.symm
          subst hs0
          have : n' = n := decodeName_inj (hshort' n' hn')
            (hshort n (List.mem_cons_self _ _)) hd hdec
          subst this
          exact hnmem hn'
        · exact hfresh s (List.mem_map.mpr ⟨q, hq', hq1⟩) n'
            (List.mem_cons_of_mem _ hn') hd
      have hrec := ih props (insertSorted m s0 ((listLookup props n).getD 0))
        hm' hnd' hshort' hfresh'
      refine ⟨hrec.1, fun s w => ?_⟩
      rw [hrec.2 s w]
      rw [mem_insertSorted m s0 _ hfresh0 (s, w)]
      constructor
      · rintro ((heq | hmem) | ⟨n', hn', hd, hw⟩)
        · rcases Prod.mk.injEq .. ▸ heq with ⟨h1, h2⟩
          exact Or.inr ⟨n, List.mem_cons_self _ _, by rw [hdec, h1], h2⟩
        · exact Or.inl hmem
        · exact Or.inr ⟨n', List.mem_cons_of_mem _ hn', hd, hw⟩
      · rintro (hmem | ⟨n', hn', hd, hw⟩)
        · exact Or.inl (Or.inr hmem)
        · rcases List.mem_cons.mp hn' with rfl | hn''
          · rw [hdec] at hd
            injection hd with hd'
            exact Or.inl (Or.inl (by rw [hd', hw]))
          · exact Or.inr ⟨n', hn'', hd, hw⟩

/-- Generic property read on a plain object: first-match lookup of the
key's bytes, `undefined` when absent, no allocation. -/
theorem getProperty_obj (env : Env) (o key : Handle) (kb : List Nat)
    (props : List (List Nat × Handle))
    (hk : env.vals.get? key = some (.str kb))
    (ho : env.vals.get? o = some (.obj props)) :
    napi_get_property env o key =
      (env.log (.getProperty o key .ok ((listLookup props kb).getD 0)), .ok,
        (listLookup props kb).getD 0) := by
  unfold napi_get_property
  rw [hk, ho]

/-- The heap after `get_string` on a live string value: the `"length"` key
string and the number read for the length property are appended; nothing
else changes. -/
theorem getString_str_vals (env : Env) (v : Handle) (bytes : List Nat)
    (hv : env.vals.get? v = some (.str bytes)) :
    (get_string env v).1.vals =
      env.vals ++ [.str lengthKey, .num (bytes.length : Int)] := by
  have hv0 : env.vals[v]? = some (HVal.str bytes) := by
    rw [← List.get?_eq_getElem?]
    exact hv
  have hv1 : ∀ l2, (env.vals ++ l2)[v]? = some (HVal.str bytes) :=
    getElem?_append_some hv0
  have hnum : (env.vals ++ [HVal.str lengthKey,
      HVal.num (bytes.length : Int)])[env.vals.length + 1]? =
      some (HVal.num (bytes.length : Int)) := by
    have h' := getElem?_append_self (env.vals ++ [HVal.str lengthKey])
      (HVal.num (bytes.length : Int)) []
    simpa [-List.getElem?_eq_getElem] using h'
  have hmod : ((bytes.length : Int) % 4294967296).toNat =
      bytes.length % 4294967296 := by omega
  simp [get_string, create_length_string, napi_get_property,
    getElem?_append_self, hv1, hnum, Env.alloc, Env.log, Env.assert,
    napi_get_value_uint32, napi_get_value_string_utf8, hmod,
    -List.getElem?_eq_getElem]
  split <;> rfl


/-- Running the `get_object_map` loop from cursor position `k` over an
array of name-string handles performs exactly the pure name fold
`mapInserts`: each name resolving on the object, decodable names inserted
in key order, undecodable names skipped. -/
theorem objMapLoop_run :
    ∀ (names : List (List Nat)) (k : Nat) (env : Env) (o arrH : Handle)
      (props : List (List Nat × Handle)) (hs : List Handle)
      (m : List (String × Handle)),
      env.vals.get? o = some (.obj props) →
      env.vals.get? arrH = some (.arr hs) →
      hs.length = k + names.length →
      List.Forall₂ (fun h n => env.vals.get? h = some (.str n)) (hs.drop k) names →
      (get_object_map_loop o names.length env
        { array := arrH, current_index := k, length := hs.length } m).2 =
        mapInserts props m names := by
  intro names
  induction names with
  | nil => intro k env o arrH props hs m _ _ _ _; rfl
  | cons n rest ih =>
    intro k env o arrH props hs m ho ha hlen hkeys
    have hlen' : hs.length = k + (rest.length + 1) := by simpa using hlen
    have hk : k < hs.length := by omega
    rw [List.drop_eq_getElem_cons hk] at hkeys
    rcases hkeys with _ | ⟨hkey, hkeys'⟩
    have hgetD : hs.getD k 0 = hs[k] := by
      rw [List.getD_eq_getElem?_getD, List.getElem?_eq_getElem hk]
      rfl
    have hy := next_yield env ⟨arrH, k, hs.length⟩ hs ha hk
    rcases hn : NapiArray.next env ⟨arrH, k, hs.length⟩ with ⟨env1, oo, a1⟩
    rw [hn] at hy
    have hoo : oo = some (hs.getD k 0) := hy.1
    have ha1 : a1 = ⟨arrH, k + 1, hs.length⟩ := hy.2
    have henv1 : env1.vals = env.vals := by
      have hp := (next_parts env ⟨arrH, k, hs.length⟩).1
      rw [hn] at hp
      exact hp
    subst hoo
    subst ha1
    have hkey1 : env1.vals.get? (hs.getD k 0) = some (.str n) := by
      rw [henv1, hgetD]
      exact hkey
    have ho1 : env1.vals.get? o = some (.obj props) := by
      rw [henv1]
      exact ho
    simp only [List.length_cons, get_object_map_loop, hn,
      getProperty_obj env1 o (hs.getD k 0) n props hkey1 ho1]
    rcases hgs : get_string
        ((env1.log (AbiCall.getProperty o (hs.getD k 0) Status.ok
          ((listLookup props n).getD 0))).assert (decide True))
        (hs.getD k 0) with ⟨env4, res⟩
    have hkey3 : ((env1.log (AbiCall.getProperty o (hs.getD k 0) Status.ok
        ((listLookup props n).getD 0))).assert (decide True)).vals.get?
        (hs.getD k 0) = some (.str n) := hkey1
    have hres := getString_str _ (hs.getD k 0) n hkey3
    have hvals4 := getString_str_vals _ (hs.getD k 0) n hkey3
    rw [hgs] at hres hvals4
    have hvals4' : env4.vals =
        env.vals ++ [.str lengthKey, .num (n.length : Int)] := by
      rw [hvals4]
      show env1.vals ++ _ = _
      rw [henv1]
    have ho4 : env4.vals.get? o = some (HVal.obj props) := by
      rw [hvals4']
      exact get?_append_some ho _
    have ha4 : env4.vals.get? arrH = some (HVal.arr hs) := by
      rw [hvals4']
      exact get?_append_some ha _
    have hlen4 : hs.length = (k + 1) + rest.length := by omega
    have hkeys4 : List.Forall₂
        (fun h n => env4.vals.get? h = some (HVal.str n))
        (hs.drop (k + 1)) rest := by
      refine List.Forall₂.imp (fun h nb hx => ?_) hkeys'
      rw [hvals4']
      exact get?_append_some hx _
    rcases hdec : utf8Decode (extractedBytes n) with _ | cs
    · have hdn : decodeName n = none := by
        unfold decodeName
        rw [hdec]
        rfl
      simp only [hdec] at hres
      rw [hres]
      simp only [mapInserts, hdn]
      exact ih (k + 1) env4 o arrH props hs m ho4 ha4 hlen4 hkeys4
    · have hdn : decodeName n = some (String.mk cs) := by
        unfold decodeName
        rw [hdec]
        rfl
      simp only [hdec] at hres
      rw [hres]
      simp only [mapInserts, hdn]
      exact ih (k + 1) env4 o arrH props hs
        (insertSorted m (String.mk cs) ((listLookup props n).getD 0))
        ho4 ha4 hlen4 hkeys4

/-- `allocStrings` appends one string value per name and returns the
consecutive fresh handles. -/
theorem allocStrings_spec :
    ∀ (names : List (List Nat)) (env : Env),
      (allocStrings env names).1.vals = env.vals ++ names.map HVal.str ∧
      (allocStrings env names).2 = List.range' env.vals.length names.length := by
  intro names
  induction names with
  | nil => intro env; exact ⟨(List.append_nil _).symm, rfl⟩
  | cons nb rest ih =>
    intro env
    have h1 := ih { env with vals := env.vals ++ [HVal.str nb] }
    rcases hAS : allocStrings { env with vals := env.vals ++ [HVal.str nb] } rest
      with ⟨env2, hs⟩
    rw [hAS] at h1
    have hv : env2.vals = env.vals ++ HVal.str nb :: rest.map HVal.str := by
      rw [h1.1]
      simp
    have hh : hs = List.range' (env.vals.length + 1) rest.length := by
      simpa using h1.2
    constructor
    · show (allocStrings env (nb :: rest)).1.vals = _
      simp only [allocStrings, Env.alloc, hAS]
      exact hv
    · show (allocStrings env (nb :: rest)).2 = _
      simp only [allocStrings, Env.alloc, hAS, List.length_cons]
      rw [List.range'_succ]
      simp [hh]

/-- The handles `allocStrings` returns resolve to their name strings in
any heap extending the allocation on both sides. -/
theorem range'_str_lookup :
    ∀ (names : List (List Nat)) (pre l3 : List HVal),
      List.Forall₂
        (fun h nb => (pre ++ names.map HVal.str ++ l3).get? h = some (.str nb))
        (List.range' pre.length names.length) names := by
  intro names
  induction names with
  | nil => intro pre l3; exact List.Forall₂.nil
  | cons nb rest ih =>
    intro pre l3
    simp only [List.length_cons, List.map_cons]
    rw [List.range'_succ]
    refine List.Forall₂.cons ?_ ?_
    · exact get?_append_some (get?_append_self pre (HVal.str nb) (rest.map HVal.str)) l3
    · have h := ih (pre ++ [HVal.str nb]) l3
      simpa [List.append_assoc] using h

/-- `objMapLoop_run` with the fuel given by an equation, as the call site
produces it. -/
theorem objMapLoop_run' (names : List (List Nat)) (fuel k : Nat) (env : Env)
    (o arrH : Handle) (props : List (List Nat × Handle)) (hs : List Handle)
    (m : List (String × Handle))
    (hfuel : fuel = names.length)
    (ho : env.vals.get? o = some (.obj props))
    (ha : env.vals.get? arrH = some (.arr hs))
    (hlen : hs.length = k + names.length)
    (hkeys : List.Forall₂ (fun h n => env.vals.get? h = some (.str n))
      (hs.drop k) names) :
    (get_object_map_loop o fuel env
      { array := arrH, current_index := k, length := hs.length } m).2 =
      mapInserts props m names := by
  subst hfuel
  exact objMapLoop_run names k env o arrH props hs m ho ha hlen hkeys

/-- `get_object_map` on a live plain object computes the pure name fold
over the object's own property names, in order. -/
theorem getObjectMap_run (env : Env) (o : Handle)
    (props : List (List Nat × Handle))
    (ho : env.vals.get? o = some (.obj props))
    (hlen : props.length < 4294967296) :
    (get_object_map env o).2 = mapInserts props [] (props.map Prod.fst) := by
  rcases hAS : allocStrings env (props.map Prod.fst) with ⟨envA, hsA⟩
  have hspec := allocStrings_spec (props.map Prod.fst) env
  rw [hAS] at hspec
  have hAvals : envA.vals = env.vals ++ (props.map Prod.fst).map HVal.str :=
    hspec.1
  have hAhs : hsA = List.range' env.vals.length props.length := by
    simpa using hspec.2
  have hsAlen : hsA.length = props.length := by
    rw [hAhs]
    simp
  have harr : (envA.vals ++ [HVal.arr hsA]).get? envA.vals.length
      = some (HVal.arr hsA) :=
    get?_append_self envA.vals (HVal.arr hsA) []
  have hmod : hsA.length % 4294967296 = hsA.length :=
    Nat.mod_eq_of_lt (by omega)
  simp only [get_object_map, napi_get_property_names, ho, hAS, Env.alloc,
    Env.log, Env.assert, NapiArray.from_existing, napi_get_array_length,
    harr, hmod]
  refine objMapLoop_run' (props.map Prod.fst) (hsA.length - 0) 0 _ o
    envA.vals.length props hsA [] ?_ ?_ ?_ ?_ ?_
  · simp [hsAlen]
  · show (envA.vals ++ [HVal.arr hsA]).get? o = some (HVal.obj props)
    refine get?_append_some ?_ _
    rw [hAvals]
    exact get?_append_some ho _
  · exact harr
  · simp [hsAlen]
  · have h4 := range'_str_lookup (props.map Prod.fst) env.vals [HVal.arr hsA]
    rw [List.length_map] at h4
    rw [← hAhs] at h4
    rw [← hAvals] at h4
    simpa using h4

/-- C5: `get_object_map` enumerates the object's own property names,
resolves each name to its property value, and returns a mapping strictly
ordered by string key in which every name whose `get_string` succeeds
(UTF-8-decodable under the `u32` size arithmetic) appears with its
resolved value, and every name whose `get_string` fails is silently
omitted while all other entries are retained. -/
theorem getObjectMap_spec (env : Env) (o : Handle)
    (props : List (List Nat × Handle))
    (ho : env.vals.get? o = some (HVal.obj props))
    (hnd : (props.map Prod.fst).Nodup)
    (hshort : ∀ n, n ∈ props.map Prod.fst → n.length < 4294967295)
    (hcount : props.length < 4294967296) :
    List.Pairwise (fun p q : String × Handle => p.1 < q.1)
      (get_object_map env o).2 ∧
    ∀ s w, (s, w) ∈ (get_object_map env o).2 ↔
      ∃ n, (n, w) ∈ props ∧ (utf8Decode n).map String.mk = some s := by
  have hrun := getObjectMap_run env o props ho hcount
  have hmi := mapInserts_spec (props.map Prod.fst) props []
    List.Pairwise.nil hnd hshort (by intro s hs; simp at hs)
  rw [hrun]
  refine ⟨hmi.1, fun s w => ?_⟩
  rw [hmi.2 s w]
  constructor
  · rintro (h | ⟨n, hn, hd, hw⟩)
    · exact absurd h (List.not_mem_nil _)
    · rcases List.mem_map.mp hn with ⟨⟨n', w'⟩, hmem, rfl⟩
      have hl := listLookup_of_mem props hnd n' w' hmem
      refine ⟨n', ?_, ?_⟩
      · rw [hw, hl]
        exact hmem
      · rw [← decodeName_of_lt (hshort _ hn)]
        exact hd
  · rintro ⟨n, hmem, hd⟩
    have hn : n ∈ props.map Prod.fst := List.mem_map.mpr ⟨(n, w), hmem, rfl⟩
    have hl := listLookup_of_mem props hnd n w hmem
    refine Or.inr ⟨n, hn, ?_, ?_⟩
    · rw [decodeName_of_lt (hshort n hn)]
      exact hd
    · rw [hl]
      rfl

/-- C5 witness: an object with keys `"a"`, `"b"` and a non-UTF-8 key
`[255]` yields the two-entry ordered mapping with both decodable keys
present and the bad key dropped. -/
theorem getObjectMap_spec_witness :
    ((⟨[.undef, .nullv,
        .obj [(utf8Encode "b", 4), (utf8Encode "a", 3), ([255], 5)],
        .num 1, .num 2, .num 9], [], [], []⟩ : Env).vals.get? 2 =
      some (HVal.obj [(utf8Encode "b", 4), (utf8Encode "a", 3), ([255], 5)])) ∧
    (([(utf8Encode "b", 4), (utf8Encode "a", 3), (([255] : List Nat), 5)]
      : List (List Nat × Handle)).map Prod.fst).Nodup ∧
    (∀ n, n ∈ ([(utf8Encode "b", 4), (utf8Encode "a", 3),
      (([255] : List Nat), 5)] : List (List Nat × Handle)).map Prod.fst →
      n.length < 4294967295) ∧
    (([(utf8Encode "b", 4), (utf8Encode "a", 3), (([255] : List Nat), 5)]
      : List (List Nat × Handle)).length < 4294967296) ∧
    (List.Pairwise (fun p q : String × Handle => p.1 < q.1)
      (get_object_map (⟨[.undef, .nullv,
        .obj [(utf8Encode "b", 4), (utf8Encode "a", 3), ([255], 5)],
        .num 1, .num 2, .num 9], [], [], []⟩ : Env) 2).2 ∧
     ∀ s w, (s, w) ∈ (get_object_map (⟨[.undef, .nullv,
        .obj [(utf8Encode "b", 4), (utf8Encode "a", 3), ([255], 5)],
        .num 1, .num 2, .num 9], [], [], []⟩ : Env) 2).2 ↔
       ∃ n, (n, w) ∈ ([(utf8Encode "b", 4), (utf8Encode "a", 3),
         (([255] : List Nat), 5)] : List (List Nat × Handle)) ∧
         (utf8Decode n).map String.mk = some s) :=
  ⟨by decide, by decide, by decide, by decide,
   getObjectMap_spec _ 2 _ (by decide) (by decide) (by decide) (by decide)⟩

end Napi
